/-
Verification of the Canny edge-detection core of `imageproc` (src/src/edges.rs).

The Rust code is shallowly embedded as follows.

* An `ImageBuffer` (row-major flat buffer plus `u32` width/height) is a
  `Raster α`: width, height and a row-major `List` of samples whose length is
  `width * height`.  `f32` magnitude samples are modelled as `ℚ` (the code
  only ever compares them, and every finite `f32` is a rational, so any run
  of the floating-point code is an instance of the rational model); `i16`
  gradient samples as `ℤ`; `u8` output samples as `ℕ` (values 0 and 255).
* Pixel coordinates are `ℤ × ℤ`.  Rust's `u32` coordinate arithmetic
  `nx - 1` panics on underflow in debug mode and, in release mode, wraps to
  `u32::MAX`, which then makes `get_pixel` panic (a raster's width is at most
  `u32::MAX`, so sample `u32::MAX` is always out of range).  Either way the
  program aborts, which the embedding models by `Option`: a `get?` at a
  coordinate outside the raster yields `none`, and `none` propagates.
* Loops that Rust executes with an explicit work stack are embedded as fuel
  recursion; the fuel passed by the wrappers is a strict upper bound on the
  number of iterations (each iteration either pops the stack without pushing
  or turns at least one 0-sample into 255), so fuel exhaustion is
  unreachable and `none` means exactly that the Rust program panics.
-/
import Mathlib

namespace Imageproc

/-- A raster image: the embedding of `image::ImageBuffer<Luma<_>, Vec<_>>`,
an owned row-major buffer together with its dimensions. -/
structure Raster (α : Type) where
  width : ℕ
  height : ℕ
  data : List α
  hsize : data.length = width * height

namespace Raster

/-- Coordinate `(x, y)` lies inside raster `r`. -/
def InBounds (r : Raster α) (x y : ℤ) : Prop :=
  0 ≤ x ∧ x < (r.width : ℤ) ∧ 0 ≤ y ∧ y < (r.height : ℤ)

instance (r : Raster α) (x y : ℤ) : Decidable (r.InBounds x y) := by
  unfold InBounds; infer_instance

/-- Embedding of `get_pixel` / the `Index` impl: in bounds it returns the
sample; out of bounds the Rust code panics (`none`). -/
def get? (r : Raster α) (x y : ℤ) : Option α :=
  if r.InBounds x y then r.data[y.toNat * r.width + x.toNat]? else none

/-- Embedding of `put_pixel`.  Every `put_pixel` in the embedded code is
preceded by a successful `get_pixel` at the same coordinate, so the
out-of-bounds branch (where Rust would panic) is never taken. -/
def set (r : Raster α) (x y : ℤ) (v : α) : Raster α :=
  if r.InBounds x y then
    ⟨r.width, r.height, r.data.set (y.toNat * r.width + x.toNat) v,
      by rw [List.length_set]; exact r.hsize⟩
  else r

/-- Embedding of `ImageBuffer::from_pixel`: a constant raster. -/
def fill (w h : ℕ) (v : α) : Raster α :=
  ⟨w, h, List.replicate (w * h) v, by simp⟩

theorem ext_wh_data : ∀ {r s : Raster α}, r.width = s.width → r.height = s.height →
    r.data = s.data → r = s
  | ⟨_, _, _, _⟩, ⟨_, _, _, _⟩, rfl, rfl, rfl => rfl

instance [DecidableEq α] : DecidableEq (Raster α) := fun r s =>
  decidable_of_iff (r.width = s.width ∧ r.height = s.height ∧ r.data = s.data)
    ⟨fun ⟨h1, h2, h3⟩ => ext_wh_data h1 h2 h3, fun h => by subst h; exact ⟨rfl, rfl, rfl⟩⟩

theorem index_lt (r : Raster α) {x y : ℤ} (h : r.InBounds x y) :
    y.toNat * r.width + x.toNat < r.data.length := by
  obtain ⟨hx0, hxw, hy0, hyh⟩ := h
  rw [r.hsize]
  have hx : x.toNat < r.width := by omega
  have hy : y.toNat < r.height := by omega
  calc y.toNat * r.width + x.toNat < y.toNat * r.width + r.width := by omega
    _ = (y.toNat + 1) * r.width := by ring
    _ ≤ r.height * r.width := Nat.mul_le_mul_right _ (by omega)
    _ = r.width * r.height := Nat.mul_comm _ _

theorem get?_isSome {r : Raster α} {x y : ℤ} (h : r.InBounds x y) :
    ∃ v, r.get? x y = some v := by
  rw [get?, if_pos h]
  exact ⟨_, List.getElem?_eq_getElem (r.index_lt h)⟩

theorem get?_eq_none {r : Raster α} {x y : ℤ} (h : ¬ r.InBounds x y) :
    r.get? x y = none := by rw [get?, if_neg h]

theorem inBounds_of_get? {r : Raster α} {x y : ℤ} {v : α} (h : r.get? x y = some v) :
    r.InBounds x y := by
  by_contra hc
  rw [get?_eq_none hc] at h
  exact Option.noConfusion h

theorem set_width (r : Raster α) (x y : ℤ) (v : α) : (r.set x y v).width = r.width := by
  unfold set; split <;> rfl

theorem set_height (r : Raster α) (x y : ℤ) (v : α) : (r.set x y v).height = r.height := by
  unfold set; split <;> rfl

theorem set_data {r : Raster α} {x y : ℤ} (h : r.InBounds x y) (v : α) :
    (r.set x y v).data = r.data.set (y.toNat * r.width + x.toNat) v := by
  unfold set; rw [if_pos h]

theorem inBounds_set_iff (r : Raster α) (x y a b : ℤ) (v : α) :
    (r.set x y v).InBounds a b ↔ r.InBounds a b := by
  unfold InBounds
  rw [set_width, set_height]

theorem index_inj {r : Raster α} {x y a b : ℤ} (h1 : r.InBounds x y) (h2 : r.InBounds a b)
    (h : y.toNat * r.width + x.toNat = b.toNat * r.width + a.toNat) : x = a ∧ y = b := by
  obtain ⟨hx0, hxw, hy0, hyh⟩ := h1
  obtain ⟨ha0, haw, hb0, hbh⟩ := h2
  have hx : x.toNat < r.width := by omega
  have ha : a.toNat < r.width := by omega
  have hxa : x.toNat = a.toNat ∧ y.toNat = b.toNat := by
    have hmod : (y.toNat * r.width + x.toNat) % r.width = x.toNat := by
      rw [Nat.mul_comm, Nat.mul_add_mod, Nat.mod_eq_of_lt hx]
    have hmod' : (b.toNat * r.width + a.toNat) % r.width = a.toNat := by
      rw [Nat.mul_comm, Nat.mul_add_mod, Nat.mod_eq_of_lt ha]
    have hx' : x.toNat = a.toNat := by rw [← hmod, ← hmod', h]
    refine ⟨hx', ?_⟩
    have hw : 0 < r.width := by omega
    have hyb : y.toNat * r.width = b.toNat * r.width := by omega
    exact Nat.eq_of_mul_eq_mul_right hw hyb
  omega

theorem get?_set_self {r : Raster α} {x y : ℤ} (h : r.InBounds x y) (v : α) :
    (r.set x y v).get? x y = some v := by
  have hib : (r.set x y v).InBounds x y := (inBounds_set_iff r x y x y v).mpr h
  rw [get?, if_pos hib, set_data h, set_width]
  exact List.getElem?_set_self (r.index_lt h)

theorem get?_set_other {r : Raster α} {x y a b : ℤ} (v : α) (hne : ¬(a = x ∧ b = y)) :
    (r.set x y v).get? a b = r.get? a b := by
  by_cases hxy : r.InBounds x y
  · by_cases hab : r.InBounds a b
    · have hib : (r.set x y v).InBounds a b := (inBounds_set_iff r x y a b v).mpr hab
      rw [get?, get?, if_pos hib, if_pos hab, set_data hxy, set_width]
      apply List.getElem?_set_ne
      intro he
      exact hne ⟨(index_inj hxy hab he).1.symm, (index_inj hxy hab he).2.symm⟩
    · rw [get?_eq_none hab,
        get?_eq_none (fun hc => hab ((inBounds_set_iff r x y a b v).mp hc))]
  · unfold set; rw [if_neg hxy]

theorem inBounds_fill_iff {w h : ℕ} {x y : ℤ} (v : α) :
    (fill w h v).InBounds x y ↔ (0 ≤ x ∧ x < (w : ℤ) ∧ 0 ≤ y ∧ y < (h : ℤ)) := Iff.rfl

theorem get?_fill {w h : ℕ} {x y : ℤ} (v : α) (hib : (fill w h v).InBounds x y) :
    (fill w h v).get? x y = some v := by
  have hlt := (fill w h v).index_lt hib
  simp only [fill, List.length_replicate] at hlt
  rw [get?, if_pos hib]
  exact List.getElem?_replicate_of_lt hlt

end Raster

/-- The coordinate pair type used for pixels. -/
abbrev Coord := ℤ × ℤ

/-- `height = 0`, or `width = 0` with at least one interior row: exactly the
raster dimensions at which the `u32` expression `1..(height - 1)` /
`1..(width - 1)` in `non_maximum_suppression` (src/src/edges.rs:153-154) and
`hysteresis` (:215-216) underflows or forces an out-of-range access, so the
Rust program panics. -/
def dimsCrash (w h : ℕ) : Prop := h = 0 ∨ (w = 0 ∧ 3 ≤ h)

instance (w h : ℕ) : Decidable (dimsCrash w h) := by unfold dimsCrash; infer_instance

/-- Row-major list of the interior coordinates: the iteration order of
`for y in 1..height-1 { for x in 1..width-1 }` shared by
`non_maximum_suppression`, `hysteresis`, and the index iterator built in
`CannyPixels::new` (src/src/edges.rs:41). -/
def interiorCoords (w h : ℕ) : List Coord :=
  (List.range' 1 (h - 1 - 1)).flatMap fun y =>
    (List.range' 1 (w - 1 - 1)).map fun x => (Int.ofNat x, Int.ofNat y)

/-- `(x, y)` is an interior coordinate of a `w × h` raster: at least one
pixel away from every border. -/
def IsInterior (w h : ℕ) (c : Coord) : Prop :=
  1 ≤ c.1 ∧ c.1 + 1 < (w : ℤ) ∧ 1 ≤ c.2 ∧ c.2 + 1 < (h : ℤ)

instance (w h : ℕ) (c : Coord) : Decidable (IsInterior w h c) := by
  unfold IsInterior; infer_instance

/-- The angle bucket computed in `non_maximum_suppression`
(src/src/edges.rs:157-172): the angle (in degrees) is shifted by +180 if
negative, then clamped to one of 0, 45, 90, 135.  The source's boundary
constants 157.5, 22.5, 67.5 and 112.5 are written as the exact rationals
`mkRat 315 2`, `mkRat 45 2`, `mkRat 135 2` and `mkRat 225 2` (each `f32`
constant denotes exactly that value).  The chain of conditions covers every
rational, so the source's `unreachable!()` arm (modelled by the final
`else 0`) is never taken. -/
def clampAngle (angle : ℚ) : ℕ :=
  let a := if angle < 0 then angle + 180 else angle
  if mkRat 315 2 ≤ a ∨ a < mkRat 45 2 then 0
  else if mkRat 45 2 ≤ a ∧ a < mkRat 135 2 then 45
  else if mkRat 135 2 ≤ a ∧ a < mkRat 225 2 then 90
  else if mkRat 225 2 ≤ a ∧ a < mkRat 315 2 then 135
  else 0

/-- The two comparison neighbors of `(x, y)` for each direction bucket
(src/src/edges.rs:175-189); the catch-all arm mirrors the source's
`unreachable!()` (the bucket is always one of 0/45/90/135). -/
def cmpNeighbors (x y : ℤ) (b : ℕ) : Coord × Coord :=
  if b = 0 then ((x - 1, y), (x + 1, y))
  else if b = 45 then ((x + 1, y + 1), (x - 1, y - 1))
  else if b = 90 then ((x, y - 1), (x, y + 1))
  else if b = 135 then ((x - 1, y + 1), (x + 1, y - 1))
  else ((x, y), (x, y))

/-- One interior pixel of `non_maximum_suppression`
(src/src/edges.rs:155-196).  `atanDeg a b` stands for the `f32` value
`(a as f32).atan2(b as f32) * 180 / π`: the arctangent is an external
floating-point routine, so the embedding takes it as a parameter (its
result is some rational, every finite `f32` being rational). -/
def nmsStep (g : Raster ℚ) (gx gy : Raster ℤ) (atanDeg : ℤ → ℤ → ℚ)
    (out : Raster ℚ) (c : Coord) : Option (Raster ℚ) := do
  let xg ← gx.get? c.1 c.2
  let yg ← gy.get? c.1 c.2
  let b := clampAngle (atanDeg yg xg)
  let n := cmpNeighbors c.1 c.2 b
  let cmp1 ← g.get? n.1.1 n.1.2
  let cmp2 ← g.get? n.2.1 n.2.2
  let pixel ← g.get? c.1 c.2
  if pixel < cmp1 ∨ pixel < cmp2 then pure (out.set c.1 c.2 0)
  else pure (out.set c.1 c.2 pixel)

/-- `non_maximum_suppression` (src/src/edges.rs:147-200). -/
def nms (g : Raster ℚ) (gx gy : Raster ℤ) (atanDeg : ℤ → ℤ → ℚ) : Option (Raster ℚ) :=
  if dimsCrash g.width g.height then none
  else (interiorCoords g.width g.height).foldlM (nmsStep g gx gy atanDeg)
    (Raster.fill g.width g.height 0)

/-- The six neighbor offsets examined during flood propagation, in source
order (src/src/edges.rs:226-231 and 75-80).  Note the asymmetry: north and
north-east are omitted, exactly as in the source. -/
def neighborIndices (nx ny : ℤ) : List Coord :=
  [(nx + 1, ny), (nx + 1, ny + 1), (nx, ny + 1),
   (nx - 1, ny - 1), (nx - 1, ny), (nx - 1, ny + 1)]

/-- The `for neighbor_idx in &neighbor_indices` body
(src/src/edges.rs:233-240): each neighbor at least `low_thresh` that is
still background is written to 255 and pushed.  The returned `marks` list
records the newly marked pixels in marking order; the `CannyPixels` variant
(:82-90) pushes exactly these coordinates onto `self.pixels` as well. -/
def procNbrs (input : Raster ℚ) (low : ℚ) :
    List Coord → Raster ℕ → List Coord → List Coord →
    Option (Raster ℕ × List Coord × List Coord)
  | [], out, stack, marks => some (out, stack, marks)
  | q :: rest, out, stack, marks => do
    let iv ← input.get? q.1 q.2
    let ov ← out.get? q.1 q.2
    if low ≤ iv ∧ ov = 0 then
      procNbrs input low rest (out.set q.1 q.2 255) (q :: stack) (marks ++ [q])
    else
      procNbrs input low rest out stack marks

/-- Number of samples equal to 0 (still background). -/
def zeroCount (r : Raster ℕ) : ℕ := r.data.countP (fun v => v == 0)

/-- The `while !edges.is_empty()` loop (src/src/edges.rs:224-241 and
73-91), with explicit fuel.  `floodLoop` supplies fuel that is a strict
upper bound on the number of iterations, so the `0` case is unreachable. -/
def floodF (input : Raster ℚ) (low : ℚ) :
    ℕ → Raster ℕ → List Coord → List Coord → Option (Raster ℕ × List Coord)
  | 0, _, _, _ => none
  | _ + 1, out, [], marks => some (out, marks)
  | fuel + 1, out, q :: rest, marks => do
    let r ← procNbrs input low (neighborIndices q.1 q.2) out rest marks
    floodF input low fuel r.1 r.2.1 r.2.2

/-- Fuel wrapper: `7 * zeroCount out + stack.length + 1` strictly exceeds
the possible number of loop iterations (every iteration removes one stack
entry and each of its at most 6 pushes turns a 0-sample into 255). -/
def floodLoop (input : Raster ℚ) (low : ℚ) (out : Raster ℕ) (stack marks : List Coord) :
    Option (Raster ℕ × List Coord) :=
  floodF input low (7 * zeroCount out + stack.length + 1) out stack marks

/-- The scan loop of `hysteresis` (src/src/edges.rs:215-244), over an
explicit list of scan coordinates, also returning the per-seed trace: for
every seed event, the list of pixels written to foreground, in writing
order (the seed first). -/
def hystScan (input : Raster ℚ) (low high : ℚ) :
    List Coord → Raster ℕ → Option (Raster ℕ × List (List Coord))
  | [], out => some (out, [])
  | c :: rest, out => do
    let ip ← input.get? c.1 c.2
    let op ← out.get? c.1 c.2
    if high ≤ ip ∧ op = 0 then
      let r ← floodLoop input low (out.set c.1 c.2 255) [c] []
      let s ← hystScan input low high rest r.1
      pure (s.1, (c :: r.2) :: s.2)
    else
      hystScan input low high rest out

/-- `hysteresis` (src/src/edges.rs:204-246) together with its seed trace.
The dimension guard mirrors the `u32` underflow of `1..(height - 1)` /
`1..(width - 1)` on degenerate dimensions. -/
def hystRun (input : Raster ℚ) (low high : ℚ) : Option (Raster ℕ × List (List Coord)) :=
  if dimsCrash input.width input.height then none
  else hystScan input low high (interiorCoords input.width input.height)
    (Raster.fill input.width input.height 0)

/-- The output raster of `hysteresis` (src/src/edges.rs:204-246): 255 for
edge pixels, 0 for background. -/
def hysteresis (input : Raster ℚ) (low high : ℚ) : Option (Raster ℕ) :=
  (hystRun input low high).map (·.1)

/-- The order in which the eager `hysteresis` writes foreground pixels. -/
def hystOrder (input : Raster ℚ) (low high : ℚ) : Option (List Coord) :=
  (hystRun input low high).map (fun r => r.2.flatten)

/-- The seed-scanning branch of `CannyPixels::next` (src/src/edges.rs:58-99):
advance through the remaining scan coordinates until a seed is found, flood
its whole connected component (pushing every written pixel onto
`self.pixels`), and yield the top of `self.pixels`; `some none` is the
exhausted iterator.  The flood body is the same loop as in `hysteresis`,
with each marked pixel additionally pushed onto `self.pixels` — hence the
shared `floodLoop`, whose mark record `r.2` is exactly what is pushed after
the seed, so the pending stack becomes `(c :: r.2).reverse` (a Rust `Vec`
pops from the back; the head of the embedding's list is the top). -/
def scanNext (input : Raster ℚ) (low high : ℚ) :
    List Coord → Raster ℕ → Option (Option (Coord × List Coord × Raster ℕ × List Coord))
  | [], _ => some none
  | c :: rest, out => do
    let ip ← input.get? c.1 c.2
    let op ← out.get? c.1 c.2
    if high ≤ ip ∧ op = 0 then
      let r ← floodLoop input low (out.set c.1 c.2 255) [c] []
      match (c :: r.2).reverse with
      | [] => none
      | p :: ps => pure (some (p, rest, r.1, ps))
    else
      scanNext input low high rest out

/-- Fully draining `CannyPixels` via repeated `next` until `None`
(src/src/edges.rs:58-104), with fuel.  A call either pops the pending
`pixels` stack or scans for the next seed. -/
def drainF (input : Raster ℚ) (low high : ℚ) :
    ℕ → List Coord → Raster ℕ → List Coord → Option (List Coord)
  | 0, _, _, _ => none
  | fuel + 1, inds, out, p :: rest => (drainF input low high fuel inds out rest).map (p :: ·)
  | fuel + 1, inds, out, [] =>
    match scanNext input low high inds out with
    | none => none
    | some none => some []
    | some (some (c, inds', out', ps)) =>
      (drainF input low high fuel inds' out' ps).map (c :: ·)

/-- Fuel wrapper: each yield either shrinks the pending stack or converts
its component's 0-samples to 255, so `zeroCount out + pixels.length + 1`
iterations always suffice. -/
def drain (input : Raster ℚ) (low high : ℚ) (inds : List Coord) (out : Raster ℕ)
    (pixels : List Coord) : Option (List Coord) :=
  drainF input low high (zeroCount out + pixels.length + 1) inds out pixels

/-- The full sequence of coordinates yielded by the iterator built by
`CannyPixels::new` on the suppressed raster `input`
(src/src/edges.rs:22-52): the `assert!(high_threshold >= low_threshold)`,
then (after preprocessing shared verbatim with `canny`) the drain of the
iterator.  The dimension guard mirrors the panic of the preceding
`non_maximum_suppression` / range construction on degenerate dimensions. -/
def cannyPixelsList (input : Raster ℚ) (low high : ℚ) : Option (List Coord) :=
  if high < low then none
  else if dimsCrash input.width input.height then none
  else drain input low high (interiorCoords input.width input.height)
    (Raster.fill input.width input.height 0) []

/-- Writing the foreground value at every coordinate of `coords` on an
otherwise all-background raster of dimensions `w × h` (the reconstruction
described by the spec's lazy/eager contract). -/
def writeFg (w h : ℕ) (coords : List Coord) : Raster ℕ :=
  coords.foldl (fun r c => r.set c.1 c.2 255) (Raster.fill w h 0)

/-- Number of foreground (255) samples. -/
def fgCount (r : Raster ℕ) : ℕ := r.data.countP (fun v => v == 255)

/-- Embedding of `ImageBuffer::from_raw(w, h, buf).unwrap()`
(src/src/edges.rs:36, 137): `None` (and hence a panic) unless the buffer
length matches the dimensions. -/
def fromRaw (w h : ℕ) (d : List α) : Option (Raster α) :=
  if hl : d.length = w * h then some ⟨w, h, d, hl⟩ else none

/-- The gradient-magnitude raster of `canny` and `CannyPixels::new`
(src/src/edges.rs:31-36 and 132-137): zip the two sobel rasters sample by
sample with `f32::hypot`.  `hypot` is an external floating-point routine,
so the embedding takes it as a parameter `hyp`; `w`/`h` are the input
image's dimensions. -/
def gradientMagnitude (w h : ℕ) (gx gy : Raster ℤ) (hyp : ℤ → ℤ → ℚ) : Option (Raster ℚ) :=
  fromRaw w h (List.zipWith hyp gx.data gy.data)

/-- `canny` (src/src/edges.rs:119-144), starting from the two sobel
gradient rasters.  The Gaussian blur and the sobel operators are external
collaborators producing same-size rasters (spec §6), so the pipeline is
embedded from the gradient rasters onward; `hyp` and `atanDeg` stand for
`f32::hypot` and the degree-scaled `f32::atan2`. -/
def canny (w h : ℕ) (gx gy : Raster ℤ) (hyp : ℤ → ℤ → ℚ) (atanDeg : ℤ → ℤ → ℚ)
    (low high : ℚ) : Option (Raster ℕ) :=
  if high < low then none
  else do
    let g ← gradientMagnitude w h gx gy hyp
    let t ← nms g gx gy atanDeg
    hysteresis t low high

/-- The state built by `CannyPixels::new` (src/src/edges.rs:22-52): the
suppressed raster, the remaining scan indices, the working image and the
pending pixel stack. -/
structure CannyState where
  image : Raster ℚ
  indices : List Coord
  working : Raster ℕ
  pixels : List Coord

/-- `CannyPixels::new` (src/src/edges.rs:22-52): assert the threshold
order, run the shared preprocessing and non-maximum suppression, and set up
the iterator state. -/
def cannyPixelsNew (w h : ℕ) (gx gy : Raster ℤ) (hyp : ℤ → ℤ → ℚ)
    (atanDeg : ℤ → ℤ → ℚ) (low high : ℚ) : Option CannyState :=
  if high < low then none
  else do
    let g ← gradientMagnitude w h gx gy hyp
    let t ← nms g gx gy atanDeg
    pure ⟨t, interiorCoords t.width t.height, Raster.fill t.width t.height 0, []⟩

/-- Every sample is 0 or 255: the invariant of the hysteresis working
raster. -/
def Values01 (r : Raster ℕ) : Prop := ∀ v ∈ r.data, v = 0 ∨ v = 255

/-- `(x, y)` lies on the outer one-pixel border ring of a `w × h` raster. -/
def OnBorder (w h : ℕ) (c : Coord) : Prop :=
  (c.1 = 0 ∨ c.1 = (w : ℤ) - 1 ∨ c.2 = 0 ∨ c.2 = (h : ℤ) - 1) ∧
  0 ≤ c.1 ∧ c.1 < (w : ℤ) ∧ 0 ≤ c.2 ∧ c.2 < (h : ℤ)

/-- All qualifying flood neighbors of `c` are already marked in `out`. -/
def ClosedAt (input : Raster ℚ) (low : ℚ) (out : Raster ℕ) (c : Coord) : Prop :=
  ∀ q ∈ neighborIndices c.1 c.2, ∀ v, input.get? q.1 q.2 = some v → low ≤ v →
    out.get? q.1 q.2 = some 255

/-- The mathematical specification of which pixels hysteresis marks: the
closure of the interior pixels at least `high` under the (asymmetric)
six-neighbor steps through pixels at least `low`. -/
inductive Reach (input : Raster ℚ) (low high : ℚ) : Coord → Prop
  | seed (c : Coord) (v : ℚ) : IsInterior input.width input.height c →
      input.get? c.1 c.2 = some v → high ≤ v → Reach input low high c
  | step (p q : Coord) (v : ℚ) : Reach input low high p →
      q ∈ neighborIndices p.1 p.2 → input.get? q.1 q.2 = some v → low ≤ v →
      Reach input low high q

/-! ### Basic facts about the scan list, zero counts and sample values -/

theorem mem_interiorCoords {w h : ℕ} {c : Coord} :
    c ∈ interiorCoords w h ↔ IsInterior w h c := by
  unfold interiorCoords
  rw [List.mem_flatMap]
  constructor
  · rintro ⟨y, hy, hc⟩
    rw [List.mem_map] at hc
    obtain ⟨x, hx, rfl⟩ := hc
    rw [List.mem_range'] at hy hx
    obtain ⟨i, hi, rfl⟩ := hy
    obtain ⟨j, hj, rfl⟩ := hx
    simp only [IsInterior, Int.ofNat_eq_coe]
    refine ⟨?_, ?_, ?_, ?_⟩ <;> omega
  · rintro ⟨h1, h2, h3, h4⟩
    refine ⟨c.2.toNat, ?_, ?_⟩
    · rw [List.mem_range']
      exact ⟨c.2.toNat - 1, by omega, by omega⟩
    · rw [List.mem_map]
      refine ⟨c.1.toNat, ?_, ?_⟩
      · rw [List.mem_range']
        exact ⟨c.1.toNat - 1, by omega, by omega⟩
      · cases c with
        | mk a b =>
          simp only [Prod.mk.injEq, Int.ofNat_eq_coe]
          simp only [Prod.fst, Prod.snd] at h1 h2 h3 h4
          constructor <;> omega

theorem nodup_interiorCoords (w h : ℕ) : (interiorCoords w h).Nodup := by
  unfold interiorCoords
  refine List.nodup_flatMap.2 ⟨?_, ?_⟩
  · intro y _
    refine List.Nodup.map ?_ (List.nodup_range' _ _)
    intro a b hab
    have h1 : Int.ofNat a = Int.ofNat b := congrArg Prod.fst hab
    rw [Int.ofNat_eq_coe, Int.ofNat_eq_coe] at h1
    omega
  · refine List.Pairwise.imp ?_ (List.nodup_range' _ _)
    intro a b hab
    rw [Function.onFun, List.disjoint_left]
    intro c hca hcb
    rw [List.mem_map] at hca hcb
    obtain ⟨x1, _, rfl⟩ := hca
    obtain ⟨x2, _, he⟩ := hcb
    have h2 : Int.ofNat b = Int.ofNat a := congrArg Prod.snd he
    rw [Int.ofNat_eq_coe, Int.ofNat_eq_coe] at h2
    omega

theorem isInterior_iff_nbrs_inBounds {r : Raster α} {nx ny : ℤ} :
    (∀ q ∈ neighborIndices nx ny, r.InBounds q.1 q.2) ↔
      IsInterior r.width r.height (nx, ny) := by
  constructor
  · intro h
    have h1 := h (nx + 1, ny + 1) (by simp [neighborIndices])
    have h2 := h (nx - 1, ny - 1) (by simp [neighborIndices])
    obtain ⟨a1, a2, a3, a4⟩ := h1
    obtain ⟨b1, b2, b3, b4⟩ := h2
    exact ⟨by omega, by omega, by omega, by omega⟩
  · rintro ⟨h1, h2, h3, h4⟩ q hq
    simp only [neighborIndices, List.mem_cons, List.mem_singleton] at hq
    rcases hq with rfl | rfl | rfl | rfl | rfl | rfl | h <;>
      first
        | exact ⟨by omega, by omega, by omega, by omega⟩
        | cases h

theorem inBounds_of_isInterior {r : Raster α} {c : Coord}
    (h : IsInterior r.width r.height c) : r.InBounds c.1 c.2 := by
  obtain ⟨h1, h2, h3, h4⟩ := h
  exact ⟨by omega, by omega, by omega, by omega⟩

theorem mem_data_of_get? {r : Raster α} {x y : ℤ} {v : α} (h : r.get? x y = some v) :
    v ∈ r.data := by
  have hib := Raster.inBounds_of_get? h
  rw [Raster.get?, if_pos hib] at h
  exact List.getElem?_mem h

theorem get?_eq_getElem {r : Raster α} {x y : ℤ} (hib : r.InBounds x y) :
    r.get? x y = r.data[y.toNat * r.width + x.toNat]? := by
  rw [Raster.get?, if_pos hib]

theorem zeroCount_set_255 {out : Raster ℕ} {x y : ℤ} (h0 : out.get? x y = some 0) :
    zeroCount (out.set x y 255) + 1 = zeroCount out := by
  have hib := Raster.inBounds_of_get? h0
  have hlt := out.index_lt hib
  have hget : out.data[y.toNat * out.width + x.toNat] = 0 := by
    rw [get?_eq_getElem hib, List.getElem?_eq_getElem hlt] at h0
    exact Option.some.inj h0
  have hge : 1 ≤ out.data.countP (fun v => v == 0) := by
    have := List.boole_getElem_le_countP (fun v => v == 0) out.data _ hlt
    rw [hget] at this
    simpa using this
  unfold zeroCount
  rw [Raster.set_data hib, List.countP_set _ _ _ _ hlt, hget]
  simp only [beq_self_eq_true, if_true]
  norm_num
  omega

theorem values01_set_255 {out : Raster ℕ} (hv : Values01 out) (x y : ℤ) :
    Values01 (out.set x y 255) := by
  intro v hvm
  unfold Raster.set at hvm
  split at hvm
  · rcases List.mem_or_eq_of_mem_set hvm with h | h
    · exact hv v h
    · exact Or.inr h
  · exact hv v hvm

theorem values01_fill0 (w h : ℕ) : Values01 (Raster.fill w h 0) := by
  intro v hv
  exact Or.inl (List.eq_of_mem_replicate hv)

theorem values01_get? {out : Raster ℕ} (hv : Values01 out) {x y : ℤ} {v : ℕ}
    (h : out.get? x y = some v) : v = 0 ∨ v = 255 :=
  hv v (mem_data_of_get? h)

/-! ### Characterization of the flood propagation -/

/-- What one pass over a popped pixel's neighbor list does: it writes 255 to
and pushes exactly a duplicate-free sublist `d` of the qualifying
still-background neighbors (recording them in `marks` in the same order),
leaves every other sample unchanged, and afterwards every qualifying
neighbor is marked. -/
theorem procNbrs_spec {input : Raster ℚ} {low : ℚ} {nbrs : List Coord} :
    ∀ {stack marks : List Coord} {out out' : Raster ℕ} {stack' marks' : List Coord},
      procNbrs input low nbrs out stack marks = some (out', stack', marks') →
      Values01 out →
      ∃ d : List Coord,
        stack' = d.reverse ++ stack ∧
        marks' = marks ++ d ∧
        d.Nodup ∧
        (∀ c ∈ d, c ∈ nbrs ∧ out.get? c.1 c.2 = some 0 ∧
          ∃ v, input.get? c.1 c.2 = some v ∧ low ≤ v) ∧
        (∀ c : Coord, out'.get? c.1 c.2 =
          if c ∈ d then some 255 else out.get? c.1 c.2) ∧
        zeroCount out' + d.length = zeroCount out ∧
        Values01 out' ∧
        out'.width = out.width ∧ out'.height = out.height ∧
        (∀ q ∈ nbrs, ∃ v, input.get? q.1 q.2 = some v) ∧
        (∀ q ∈ nbrs, ∀ v, input.get? q.1 q.2 = some v → low ≤ v →
          out'.get? q.1 q.2 = some 255) := by
  induction nbrs with
  | nil =>
    intro stack marks out out' stack' marks' h hv
    rw [procNbrs] at h
    simp only [Option.some.injEq, Prod.mk.injEq] at h
    obtain ⟨rfl, rfl, rfl⟩ := h
    exact ⟨[], by simp, by simp, List.nodup_nil, by simp,
      fun c => by simp, by simp, hv, rfl, rfl, by simp, by simp⟩
  | cons q rest ih =>
    intro stack marks out out' stack' marks' h hv
    rw [procNbrs] at h
    cases hiv : input.get? q.1 q.2 with
    | none => rw [hiv] at h; simp at h
    | some iv =>
      rw [hiv] at h
      cases hov : out.get? q.1 q.2 with
      | none => rw [hov] at h; simp at h
      | some ov =>
        rw [hov] at h
        simp only [Option.bind_eq_bind, Option.some_bind] at h
        by_cases hc : low ≤ iv ∧ ov = 0
        · rw [if_pos hc] at h
          have hib : out.InBounds q.1 q.2 := Raster.inBounds_of_get? hov
          have h0 : out.get? q.1 q.2 = some 0 := by rw [hov, hc.2]
          obtain ⟨d', hs, hm, hnd, hmem, hpt, hzc, hv', hw, hh, hex, hcov⟩ :=
            ih h (values01_set_255 hv q.1 q.2)
          have hqd : q ∉ d' := by
            intro hq
            have h2 := (hmem q hq).2.1
            rw [Raster.get?_set_self hib 255] at h2
            exact absurd (Option.some.inj h2) (by norm_num)
          refine ⟨q :: d', ?_, ?_, ?_, ?_, ?_, ?_, hv', ?_, ?_, ?_, ?_⟩
          · rw [hs, List.reverse_cons, List.append_assoc]
            rfl
          · rw [hm, List.append_assoc]
            rfl
          · exact List.nodup_cons.2 ⟨hqd, hnd⟩
          · intro c hcm
            rcases List.mem_cons.1 hcm with rfl | hcd
            · exact ⟨List.mem_cons_self c rest, h0, iv, hiv, hc.1⟩
            · obtain ⟨hcr, hc0, hq⟩ := hmem c hcd
              have hcq : ¬(c.1 = q.1 ∧ c.2 = q.2) := by
                intro hcq
                exact hqd (by rwa [← Prod.ext hcq.1 hcq.2])
              refine ⟨List.mem_cons_of_mem _ hcr, ?_, hq⟩
              rwa [Raster.get?_set_other 255 hcq] at hc0
          · intro c
            by_cases hcd : c ∈ d'
            · rw [hpt c, if_pos hcd, if_pos (List.mem_cons_of_mem _ hcd)]
            · rw [hpt c, if_neg hcd]
              by_cases hcq : c = q
              · subst hcq
                rw [if_pos (List.mem_cons_self c d'), Raster.get?_set_self hib]
              · rw [if_neg (by
                    intro hmem2
                    rcases List.mem_cons.1 hmem2 with h' | h'
                    · exact hcq h'
                    · exact hcd h'),
                  Raster.get?_set_other 255
                    (fun hcq2 => hcq (Prod.ext hcq2.1 hcq2.2))]
          · have hz := zeroCount_set_255 h0
            simp only [List.length_cons]
            omega
          · rw [hw, Raster.set_width]
          · rw [hh, Raster.set_height]
          · intro p hp
            rcases List.mem_cons.1 hp with rfl | hpr
            · exact ⟨iv, hiv⟩
            · exact hex p hpr
          · intro p hp v hpv hlv
            rcases List.mem_cons.1 hp with rfl | hpr
            · rw [hpt p, if_neg hqd, Raster.get?_set_self hib]
            · exact hcov p hpr v hpv hlv
        · rw [if_neg hc] at h
          obtain ⟨d', hs, hm, hnd, hmem, hpt, hzc, hv', hw, hh, hex, hcov⟩ := ih h hv
          refine ⟨d', hs, hm, hnd, ?_, hpt, hzc, hv', hw, hh, ?_, ?_⟩
          · intro c hcd
            obtain ⟨hcr, hrest⟩ := hmem c hcd
            exact ⟨List.mem_cons_of_mem _ hcr, hrest⟩
          · intro p hp
            rcases List.mem_cons.1 hp with rfl | hpr
            · exact ⟨iv, hiv⟩
            · exact hex p hpr
          · intro p hp v hpv hlv
            rcases List.mem_cons.1 hp with rfl | hpr
            · have hveq : v = iv := by
                rw [hiv] at hpv
                exact (Option.some.inj hpv).symm
              have hov255 : ov = 255 := by
                rcases values01_get? hv hov with h0' | h2
                · exact absurd ⟨hveq ▸ hlv, h0'⟩ hc
                · exact h2
              by_cases hqd2 : p ∈ d'
              · rw [hpt p, if_pos hqd2]
              · rw [hpt p, if_neg hqd2, hov, hov255]
            · exact hcov p hpr v hpv hlv

/-- Full characterization of a completed flood loop: it marks exactly a
duplicate-free list `d` of previously-background qualifying pixels (appended
to the marks accumulator in marking order) and touches nothing else; every
stack entry and every newly marked pixel is interior (its pop processed all
six neighbors in bounds); the marked pixels lie in any predicate that
contains the stack and is closed under qualifying neighbor steps; and if
every initially marked pixel was either on the stack or closed, then at the
end every marked pixel is closed. -/
theorem floodF_spec {input : Raster ℚ} {low : ℚ} {fuel : ℕ} :
    ∀ {out : Raster ℕ} {stack marks : List Coord} {out' : Raster ℕ} {marks' : List Coord},
      floodF input low fuel out stack marks = some (out', marks') →
      Values01 out →
      ∃ d : List Coord,
        marks' = marks ++ d ∧
        d.Nodup ∧
        (∀ c ∈ d, out.get? c.1 c.2 = some 0 ∧
          ∃ v, input.get? c.1 c.2 = some v ∧ low ≤ v) ∧
        (∀ c : Coord, out'.get? c.1 c.2 =
          if c ∈ d then some 255 else out.get? c.1 c.2) ∧
        zeroCount out' + d.length = zeroCount out ∧
        Values01 out' ∧
        out'.width = out.width ∧ out'.height = out.height ∧
        (∀ c ∈ stack, IsInterior input.width input.height c) ∧
        (∀ c ∈ d, IsInterior input.width input.height c) ∧
        (∀ S : Coord → Prop, (∀ c ∈ stack, S c) →
          (∀ p q v, S p → q ∈ neighborIndices p.1 p.2 →
            input.get? q.1 q.2 = some v → low ≤ v → S q) →
          ∀ c ∈ d, S c) ∧
        ((∀ c : Coord, out.get? c.1 c.2 = some 255 →
            c ∈ stack ∨ ClosedAt input low out c) →
          ∀ c : Coord, out'.get? c.1 c.2 = some 255 → ClosedAt input low out' c) := by
  induction fuel with
  | zero =>
    intro out stack marks out' marks' h hv
    rw [floodF] at h
    simp at h
  | succ fuel ih =>
    intro out stack marks out' marks' h hv
    cases stack with
    | nil =>
      rw [floodF] at h
      simp only [Option.some.injEq, Prod.mk.injEq] at h
      obtain ⟨rfl, rfl⟩ := h
      refine ⟨[], by simp, List.nodup_nil, by simp, fun c => by simp, by simp, hv,
        rfl, rfl, by simp, by simp, by simp, ?_⟩
      intro hinv c hm
      exact (hinv c hm).resolve_left (List.not_mem_nil c)
    | cons q rest =>
      obtain ⟨qx, qy⟩ := q
      rw [floodF] at h
      cases hpn : procNbrs input low (neighborIndices qx qy) out rest marks with
      | none => rw [hpn] at h; simp at h
      | some r =>
        rw [hpn] at h
        simp only [Option.bind_eq_bind, Option.some_bind] at h
        obtain ⟨out1, stack1, marks1⟩ := r
        dsimp only at h
        obtain ⟨d1, hs1, hm1, hnd1, hmem1, hpt1, hzc1, hv1, hw1, hh1, hex1, hcov1⟩ :=
          procNbrs_spec hpn hv
        obtain ⟨d2, hm2, hnd2, hmem2, hpt2, hzc2, hv2, hw2, hh2, hstk2, hd2i, hS2, hcl2⟩ :=
          ih h hv1
        have hqi : IsInterior input.width input.height (qx, qy) := by
          refine isInterior_iff_nbrs_inBounds.mp ?_
          intro p hp
          obtain ⟨v, hvp⟩ := hex1 p hp
          exact Raster.inBounds_of_get? hvp
        have hd1stk : ∀ c ∈ d1, c ∈ stack1 := by
          intro c hc
          rw [hs1, List.mem_append, List.mem_reverse]
          exact Or.inl hc
        have hd1not2 : ∀ c ∈ d1, c ∉ d2 := by
          intro c hc hc2
          have h255 : out1.get? c.1 c.2 = some 255 := by rw [hpt1 c, if_pos hc]
          have h0 : out1.get? c.1 c.2 = some 0 := (hmem2 c hc2).1
          rw [h255] at h0
          exact absurd (Option.some.inj h0) (by norm_num)
        refine ⟨d1 ++ d2, ?_, ?_, ?_, ?_, ?_, hv2, ?_, ?_, ?_, ?_, ?_, ?_⟩
        · rw [hm2, hm1, List.append_assoc]
        · exact List.Nodup.append hnd1 hnd2 (List.disjoint_left.2 (fun ha hm => hd1not2 ha hm))
        · intro c hc
          rcases List.mem_append.1 hc with hc1 | hc2
          · exact ⟨(hmem1 c hc1).2.1, (hmem1 c hc1).2.2⟩
          · have h0 : out1.get? c.1 c.2 = some 0 := (hmem2 c hc2).1
            have hc1 : c ∉ d1 := fun hcd1 => hd1not2 c hcd1 hc2
            rw [hpt1 c, if_neg hc1] at h0
            exact ⟨h0, (hmem2 c hc2).2⟩
        · intro c
          by_cases hc2 : c ∈ d2
          · rw [hpt2 c, if_pos hc2, if_pos (List.mem_append.2 (Or.inr hc2))]
          · rw [hpt2 c, if_neg hc2, hpt1 c]
            by_cases hc1 : c ∈ d1
            · rw [if_pos hc1, if_pos (List.mem_append.2 (Or.inl hc1))]
            · rw [if_neg hc1, if_neg (fun hm => (List.mem_append.1 hm).elim hc1 hc2)]
        · rw [List.length_append]
          omega
        · rw [hw2, hw1]
        · rw [hh2, hh1]
        · intro c hc
          rcases List.mem_cons.1 hc with rfl | hcr
          · exact hqi
          · exact hstk2 c (by rw [hs1, List.mem_append]; exact Or.inr hcr)
        · intro c hc
          rcases List.mem_append.1 hc with hc1 | hc2
          · exact hstk2 c (hd1stk c hc1)
          · exact hd2i c hc2
        · intro S hSstack hSclosed c hc
          have hSd1 : ∀ c ∈ d1, S c := by
            intro c hc1
            obtain ⟨hnb, _, v, hvv, hlv⟩ := hmem1 c hc1
            exact hSclosed (qx, qy) c v (hSstack (qx, qy) (List.mem_cons_self _ _))
              hnb hvv hlv
          rcases List.mem_append.1 hc with hc1 | hc2
          · exact hSd1 c hc1
          · refine hS2 S ?_ hSclosed c hc2
            intro p hp
            rw [hs1, List.mem_append, List.mem_reverse] at hp
            rcases hp with hp1 | hpr
            · exact hSd1 p hp1
            · exact hSstack p (List.mem_cons_of_mem _ hpr)
        · intro hinv
          refine hcl2 ?_
          intro c hm
          rw [hpt1 c] at hm
          by_cases hc1 : c ∈ d1
          · exact Or.inl (hd1stk c hc1)
          · rw [if_neg hc1] at hm
            rcases hinv c hm with hcs | hccl
            · rcases List.mem_cons.1 hcs with rfl | hcr
              · refine Or.inr ?_
                intro p hp v hvv hlv
                exact hcov1 p hp v hvv hlv
              · exact Or.inl (by rw [hs1, List.mem_append]; exact Or.inr hcr)
            · refine Or.inr ?_
              intro p hp v hvv hlv
              have h255 := hccl p hp v hvv hlv
              rw [hpt1 p]
              by_cases hp1 : p ∈ d1
              · rw [if_pos hp1]
              · rw [if_neg hp1]
                exact h255

/-- Characterization of the hysteresis scan: a successful scan marks
exactly the pixels of its seed trace (each segment being a seed followed by
its flood, in writing order).  These are duplicate-free, previously
background, interior and reachable; everything else is untouched; marked
pixels stay closed; and every scanned coordinate whose sample is at least
`high` ends marked. -/
theorem hystScan_spec {input : Raster ℚ} {low high : ℚ} {inds : List Coord} :
    ∀ {out outF : Raster ℕ} {segs : List (List Coord)},
      hystScan input low high inds out = some (outF, segs) →
      Values01 out →
      ∃ d : List Coord,
        d = segs.flatten ∧
        d.Nodup ∧
        (∀ c ∈ d, out.get? c.1 c.2 = some 0) ∧
        (∀ c : Coord, outF.get? c.1 c.2 =
          if c ∈ d then some 255 else out.get? c.1 c.2) ∧
        zeroCount outF + d.length = zeroCount out ∧
        Values01 outF ∧
        outF.width = out.width ∧ outF.height = out.height ∧
        (∀ c ∈ d, IsInterior input.width input.height c) ∧
        (∀ c ∈ d, Reach input low high c) ∧
        ((∀ c : Coord, out.get? c.1 c.2 = some 255 → ClosedAt input low out c) →
          ∀ c : Coord, outF.get? c.1 c.2 = some 255 → ClosedAt input low outF c) ∧
        (∀ c ∈ inds, ∀ v, input.get? c.1 c.2 = some v → high ≤ v →
          outF.get? c.1 c.2 = some 255) := by
  induction inds with
  | nil =>
    intro out outF segs h hv
    rw [hystScan] at h
    simp only [Option.some.injEq, Prod.mk.injEq] at h
    obtain ⟨rfl, rfl⟩ := h
    exact ⟨[], rfl, List.nodup_nil, by simp, fun c => by simp, by simp, hv, rfl, rfl,
      by simp, by simp, fun hcl => hcl, by simp⟩
  | cons c rest ih =>
    intro out outF segs h hv
    rw [hystScan] at h
    cases hip : input.get? c.1 c.2 with
    | none => rw [hip] at h; simp at h
    | some ip =>
      rw [hip] at h
      cases hop : out.get? c.1 c.2 with
      | none => rw [hop] at h; simp at h
      | some op =>
        rw [hop] at h
        simp only [Option.bind_eq_bind, Option.some_bind] at h
        by_cases hcond : high ≤ ip ∧ op = 0
        · rw [if_pos hcond] at h
          cases hfl : floodLoop input low (out.set c.1 c.2 255) [c] [] with
          | none => rw [hfl] at h; simp at h
          | some r =>
            rw [hfl] at h
            simp only [Option.some_bind] at h
            obtain ⟨out2, seg⟩ := r
            dsimp only at h
            cases hsc : hystScan input low high rest out2 with
            | none => rw [hsc] at h; simp at h
            | some s =>
              rw [hsc] at h
              simp only [Option.some_bind, Option.pure_def, Option.some.injEq,
                Prod.mk.injEq] at h
              obtain ⟨s1, segs'⟩ := s
              dsimp only at h
              obtain ⟨rfl, rfl⟩ := h
              have hib : out.InBounds c.1 c.2 := Raster.inBounds_of_get? hop
              have h0 : out.get? c.1 c.2 = some 0 := by rw [hop, hcond.2]
              have hvset := values01_set_255 hv c.1 c.2
              rw [floodLoop] at hfl
              obtain ⟨d1, hm1, hnd1, hmem1, hpt1, hzc1, hv1, hw1, hh1, hstk1, hd1i,
                hS1, hcl1⟩ := floodF_spec hfl hvset
              rw [List.nil_append] at hm1
              subst hm1
              obtain ⟨d2, hfl2, hnd2, hmem2, hpt2, hzc2, hv2, hw2, hh2, hd2i, hd2r,
                hcl2, hcov2⟩ := ih hsc hv1
              have hcint : IsInterior input.width input.height c :=
                hstk1 c (List.mem_cons_self c [])
              have hcd1 : c ∉ seg := by
                intro hcm
                have h2 := (hmem1 c hcm).1
                rw [Raster.get?_set_self hib 255] at h2
                exact absurd (Option.some.inj h2) (by norm_num)
              have hset_pt : ∀ e : Coord, (out.set c.1 c.2 255).get? e.1 e.2 =
                  if e = c then some 255 else out.get? e.1 e.2 := by
                intro e
                by_cases he : e = c
                · subst he
                  rw [if_pos rfl, Raster.get?_set_self hib]
                · rw [if_neg he,
                    Raster.get?_set_other 255 (fun hp => he (Prod.ext hp.1 hp.2))]
              have hout2_pt : ∀ e : Coord, out2.get? e.1 e.2 =
                  if e ∈ c :: seg then some 255 else out.get? e.1 e.2 := by
                intro e
                rw [hpt1 e, hset_pt e]
                by_cases he1 : e ∈ seg
                · rw [if_pos he1, if_pos (List.mem_cons_of_mem _ he1)]
                · rw [if_neg he1]
                  by_cases hec : e = c
                  · subst hec
                    rw [if_pos rfl, if_pos (List.mem_cons_self _ _)]
                  · rw [if_neg hec, if_neg (by
                      intro hm2
                      rcases List.mem_cons.1 hm2 with h' | h'
                      · exact hec h'
                      · exact he1 h')]
              have hdisj : ∀ e ∈ c :: seg, e ∉ d2 := by
                intro e he he2
                have hz : out2.get? e.1 e.2 = some 0 := (hmem2 e he2)
                rw [hout2_pt e, if_pos he] at hz
                exact absurd (Option.some.inj hz) (by norm_num)
              refine ⟨(c :: seg) ++ d2, ?_, ?_, ?_, ?_, ?_, hv2, ?_, ?_, ?_, ?_, ?_, ?_⟩
              · rw [hfl2, List.flatten_cons]
              · refine List.Nodup.append (List.nodup_cons.2 ⟨hcd1, hnd1⟩) hnd2
                  (List.disjoint_left.2 (fun ha hm => hdisj ha hm))
              · intro e he
                rcases List.mem_append.1 he with he1 | he2
                · rcases List.mem_cons.1 he1 with rfl | heseg
                  · exact h0
                  · have h2 := (hmem1 e heseg).1
                    rw [hset_pt e] at h2
                    by_cases hec : e = c
                    · rw [if_pos hec] at h2
                      exact absurd (Option.some.inj h2) (by norm_num)
                    · rwa [if_neg hec] at h2
                · have hz := hmem2 e he2
                  rw [hout2_pt e] at hz
                  by_cases hec : e ∈ c :: seg
                  · rw [if_pos hec] at hz
                    exact absurd (Option.some.inj hz) (by norm_num)
                  · rwa [if_neg hec] at hz
              · intro e
                rw [hpt2 e]
                by_cases he2 : e ∈ d2
                · rw [if_pos he2, if_pos (List.mem_append.2 (Or.inr he2))]
                · rw [if_neg he2, hout2_pt e]
                  by_cases he1 : e ∈ c :: seg
                  · rw [if_pos he1, if_pos (List.mem_append.2 (Or.inl he1))]
                  · rw [if_neg he1,
                      if_neg (fun hm => (List.mem_append.1 hm).elim he1 he2)]
              · have hzs := zeroCount_set_255 h0
                rw [List.length_append, List.length_cons]
                omega
              · rw [hw2, hw1, Raster.set_width]
              · rw [hh2, hh1, Raster.set_height]
              · intro e he
                rcases List.mem_append.1 he with he1 | he2
                · rcases List.mem_cons.1 he1 with rfl | heseg
                  · exact hcint
                  · exact hd1i e heseg
                · exact hd2i e he2
              · have hreach_c : Reach input low high c := Reach.seed c ip hcint hip hcond.1
                intro e he
                rcases List.mem_append.1 he with he1 | he2
                · rcases List.mem_cons.1 he1 with rfl | heseg
                  · exact hreach_c
                  · refine hS1 (Reach input low high) ?_ ?_ e heseg
                    · intro p hp
                      rcases List.mem_cons.1 hp with rfl | hp'
                      · exact hreach_c
                      · cases hp'
                    · intro p q v hSp hq hv' hl
                      exact Reach.step p q v hSp hq hv' hl
                · exact hd2r e he2
              · intro hclosed0
                refine hcl2 ?_
                refine hcl1 ?_
                intro p hp
                rw [hset_pt p] at hp
                by_cases hpc : p = c
                · exact Or.inl (hpc ▸ List.mem_cons_self c [])
                · rw [if_neg hpc] at hp
                  refine Or.inr ?_
                  intro q hq v hv' hl
                  rw [hset_pt q]
                  by_cases hqc : q = c
                  · rw [if_pos hqc]
                  · rw [if_neg hqc]
                    exact hclosed0 p hp q hq v hv' hl
              · intro e he v hv' hhv
                rcases List.mem_cons.1 he with rfl | her
                · rw [hpt2 e]
                  by_cases he2 : e ∈ d2
                  · rw [if_pos he2]
                  · rw [if_neg he2, hout2_pt e, if_pos (List.mem_cons_self _ _)]
                · exact hcov2 e her v hv' hhv
        · rw [if_neg hcond] at h
          obtain ⟨d2, hfl2, hnd2, hmem2, hpt2, hzc2, hv2, hw2, hh2, hd2i, hd2r,
            hcl2, hcov2⟩ := ih h hv
          refine ⟨d2, hfl2, hnd2, hmem2, hpt2, hzc2, hv2, hw2, hh2, hd2i, hd2r,
            hcl2, ?_⟩
          intro e he v hv' hhv
          rcases List.mem_cons.1 he with rfl | her
          · have hveq : v = ip := by
              rw [hip] at hv'
              exact (Option.some.inj hv').symm
            have hop255 : op = 255 := by
              rcases values01_get? hv hop with h0' | h2
              · exact absurd ⟨hveq ▸ hhv, h0'⟩ hcond
              · exact h2
            rw [hpt2 e]
            by_cases he2 : e ∈ d2
            · rw [if_pos he2]
            · rw [if_neg he2, hop, hop255]
          · exact hcov2 e her v hv' hhv

/-! ### The lazy iterator refines the eager scan -/

/-- `scanNext` against the eager scan: both fail together; exhaustion means
the eager scan finds no further seed; and a yield corresponds to exactly one
eager seed event whose trace segment is the reverse of the yielded pixel
followed by the new pending stack. -/
theorem scanNext_spec {input : Raster ℚ} {low high : ℚ} {inds : List Coord} :
    ∀ {out : Raster ℕ}, Values01 out →
      (scanNext input low high inds out = none →
        hystScan input low high inds out = none) ∧
      (scanNext input low high inds out = some none →
        hystScan input low high inds out = some (out, [])) ∧
      (∀ c inds' out' ps,
        scanNext input low high inds out = some (some (c, inds', out', ps)) →
        ∃ seg0 : List Coord,
          seg0.reverse = c :: ps ∧
          (∀ r : Raster ℕ × List (List Coord),
            hystScan input low high inds' out' = some r →
            hystScan input low high inds out = some (r.1, seg0 :: r.2)) ∧
          (hystScan input low high inds' out' = none →
            hystScan input low high inds out = none) ∧
          zeroCount out' + seg0.length = zeroCount out ∧
          seg0.length = ps.length + 1 ∧
          Values01 out') := by
  induction inds with
  | nil =>
    intro out hv
    refine ⟨?_, ?_, ?_⟩
    · intro h
      rw [scanNext] at h
      simp at h
    · intro h
      rw [hystScan]
    · intro c inds' out' ps h
      rw [scanNext] at h
      simp at h
  | cons c rest ih =>
    intro out hv
    refine ⟨?_, ?_, ?_⟩
    · intro h
      rw [scanNext] at h
      rw [hystScan]
      cases hip : input.get? c.1 c.2 with
      | none => rw [hip] at h; simp at h ⊢
      | some ip =>
        rw [hip] at h
        cases hop : out.get? c.1 c.2 with
        | none => rw [hop] at h; simp at h ⊢
        | some op =>
          rw [hop] at h
          simp only [Option.bind_eq_bind, Option.some_bind] at h ⊢
          by_cases hcond : high ≤ ip ∧ op = 0
          · rw [if_pos hcond] at h ⊢
            cases hfl : floodLoop input low (out.set c.1 c.2 255) [c] [] with
            | none => rfl
            | some r =>
              obtain ⟨out2, seg⟩ := r
              rw [hfl] at h
              simp only [Option.some_bind] at h
              cases hrev : (c :: seg).reverse with
              | nil => exact absurd (List.reverse_eq_nil_iff.1 hrev) (by simp)
              | cons p ps =>
                rw [hrev] at h
                simp at h
          · rw [if_neg hcond] at h ⊢
            exact (ih hv).1 h
    · intro h
      rw [scanNext] at h
      rw [hystScan]
      cases hip : input.get? c.1 c.2 with
      | none => rw [hip] at h; simp at h
      | some ip =>
        rw [hip] at h
        cases hop : out.get? c.1 c.2 with
        | none => rw [hop] at h; simp at h
        | some op =>
          rw [hop] at h
          simp only [Option.bind_eq_bind, Option.some_bind] at h ⊢
          by_cases hcond : high ≤ ip ∧ op = 0
          · rw [if_pos hcond] at h
            cases hfl : floodLoop input low (out.set c.1 c.2 255) [c] [] with
            | none => rw [hfl] at h; simp at h
            | some r =>
              obtain ⟨out2, seg⟩ := r
              rw [hfl] at h
              simp only [Option.some_bind] at h
              cases hrev : (c :: seg).reverse with
              | nil => exact absurd (List.reverse_eq_nil_iff.1 hrev) (by simp)
              | cons p ps =>
                rw [hrev] at h
                simp at h
          · rw [if_neg hcond] at h ⊢
            exact (ih hv).2.1 h
    · intro c' inds' out' ps h
      rw [scanNext] at h
      rw [hystScan]
      cases hip : input.get? c.1 c.2 with
      | none => rw [hip] at h; simp at h
      | some ip =>
        rw [hip] at h
        cases hop : out.get? c.1 c.2 with
        | none => rw [hop] at h; simp at h
        | some op =>
          rw [hop] at h
          simp only [Option.bind_eq_bind, Option.some_bind] at h ⊢
          by_cases hcond : high ≤ ip ∧ op = 0
          · rw [if_pos hcond] at h ⊢
            cases hfl : floodLoop input low (out.set c.1 c.2 255) [c] [] with
            | none => rw [hfl] at h; simp at h
            | some r =>
              obtain ⟨out2, seg⟩ := r
              rw [hfl] at h
              simp only [Option.some_bind] at h ⊢
              cases hrev : (c :: seg).reverse with
              | nil => exact absurd (List.reverse_eq_nil_iff.1 hrev) (by simp)
              | cons p ps0 =>
                rw [hrev] at h
                simp only [Option.pure_def, Option.some.injEq, Prod.mk.injEq] at h
                obtain ⟨rfl, rfl, rfl, rfl⟩ := h
                have hib : out.InBounds c.1 c.2 := Raster.inBounds_of_get? hop
                have h0 : out.get? c.1 c.2 = some 0 := by rw [hop, hcond.2]
                have hvset := values01_set_255 hv c.1 c.2
                have hfl' := hfl
                rw [floodLoop] at hfl'
                obtain ⟨d1, hm1, hnd1, hmem1, hpt1, hzc1, hv1, hw1, hh1, hstk1,
                  hd1i, hS1, hcl1⟩ := floodF_spec hfl' hvset
                rw [List.nil_append] at hm1
                subst hm1
                refine ⟨c :: seg, hrev, ?_, ?_, ?_, ?_, hv1⟩
                · intro r hr
                  rw [hr]
                  rfl
                · intro hr
                  rw [hr]
                  rfl
                · have hzs := zeroCount_set_255 h0
                  simp only [List.length_cons]
                  omega
                · have hlen := congrArg List.length hrev
                  simp only [List.length_reverse, List.length_cons] at hlen
                  simp only [List.length_cons]
                  omega
          · rw [if_neg hcond] at h ⊢
            obtain ⟨seg0, ha, hb, hc', hd', he', hf'⟩ := (ih hv).2.2 c' inds' out' ps h
            exact ⟨seg0, ha, hb, hc', hd', he', hf'⟩

/-- The lazy drain equals the eager trace: with sufficient fuel, draining
from state `(inds, out, pixels)` yields the pending `pixels` followed by the
per-seed segments of the eager scan, each segment reversed (the pending
stack pops last-marked first). -/
theorem drainF_eq {input : Raster ℚ} {low high : ℚ} :
    ∀ {fuel : ℕ} {inds : List Coord} {out : Raster ℕ} {pixels : List Coord},
      Values01 out →
      zeroCount out + pixels.length < fuel →
      drainF input low high fuel inds out pixels =
        (hystScan input low high inds out).map
          (fun r => pixels ++ (r.2.map List.reverse).flatten) := by
  intro fuel
  induction fuel with
  | zero =>
    intro inds out pixels hv hlt
    exact absurd hlt (by omega)
  | succ fuel ih =>
    intro inds out pixels hv hlt
    cases pixels with
    | cons p rest =>
      rw [drainF, ih hv (by simp only [List.length_cons] at hlt; omega)]
      cases hystScan input low high inds out with
      | none => rfl
      | some r => simp
    | nil =>
      rw [drainF]
      obtain ⟨hs1, hs2, hs3⟩ := @scanNext_spec input low high inds out hv
      cases hsn : scanNext input low high inds out with
      | none => rw [hs1 hsn]; rfl
      | some o =>
        cases o with
        | none => rw [hs2 hsn]; simp
        | some y =>
          obtain ⟨c, inds', out', ps⟩ := y
          obtain ⟨seg0, hrev, himp, hnone, hzc, hlen, hv'⟩ := hs3 c inds' out' ps hsn
          have hfuel : zeroCount out' + ps.length < fuel := by
            simp only [List.length_nil] at hlt
            omega
          dsimp only
          rw [ih hv' hfuel]
          cases hsc : hystScan input low high inds' out' with
          | none => rw [hnone hsc]; rfl
          | some r =>
            rw [himp r hsc]
            simp [hrev]

/-! ### Top-level characterization of a hysteresis run -/

theorem zeroCount_fill (w h : ℕ) : zeroCount (Raster.fill w h 0) = w * h := by
  unfold zeroCount Raster.fill
  show (List.replicate (w * h) 0).countP (fun v => v == 0) = w * h
  induction w * h with
  | zero => rfl
  | succ n ihn => rw [List.replicate_succ, List.countP_cons_of_pos _ _ (by simp), ihn]

/-- Master characterization of a completed `hysteresis` run: the output is
255 exactly on the duplicate-free trace (everywhere else the background 0),
marked pixels are interior, dimensions are preserved, and a pixel is marked
iff it is reachable (`Reach`). -/
theorem hystRun_spec {input : Raster ℚ} {low high : ℚ} {out : Raster ℕ}
    {segs : List (List Coord)}
    (h : hystRun input low high = some (out, segs)) :
    (∀ c : Coord, out.get? c.1 c.2 = if c ∈ segs.flatten then some 255
        else (Raster.fill input.width input.height (0 : ℕ)).get? c.1 c.2) ∧
    segs.flatten.Nodup ∧
    (∀ c ∈ segs.flatten, IsInterior input.width input.height c) ∧
    out.width = input.width ∧ out.height = input.height ∧
    Values01 out ∧
    zeroCount out + segs.flatten.length = input.width * input.height ∧
    (∀ c : Coord, out.get? c.1 c.2 = some 255 ↔ c ∈ segs.flatten) ∧
    (∀ c : Coord, out.get? c.1 c.2 = some 255 ↔ Reach input low high c) := by
  unfold hystRun at h
  by_cases hd : dimsCrash input.width input.height
  · rw [if_pos hd] at h
    exact absurd h (by simp)
  · rw [if_neg hd] at h
    obtain ⟨d, hd0, hnd, hmem0, hpt, hzc, hv, hw, hh, hint, hreach, hcl, hcov⟩ :=
      hystScan_spec h (values01_fill0 input.width input.height)
    subst hd0
    have hfill0 : ∀ c : Coord,
        (Raster.fill input.width input.height (0 : ℕ)).get? c.1 c.2 ≠ some 255 := by
      intro c hc
      by_cases hib : (Raster.fill input.width input.height (0 : ℕ)).InBounds c.1 c.2
      · rw [Raster.get?_fill 0 hib] at hc
        exact absurd (Option.some.inj hc) (by norm_num)
      · rw [Raster.get?_eq_none hib] at hc
        exact Option.noConfusion hc
    have hptf : ∀ c : Coord, out.get? c.1 c.2 = if c ∈ segs.flatten then some 255
        else (Raster.fill input.width input.height (0 : ℕ)).get? c.1 c.2 := hpt
    have hmarked : ∀ c : Coord, out.get? c.1 c.2 = some 255 ↔ c ∈ segs.flatten := by
      intro c
      rw [hptf c]
      by_cases hc : c ∈ segs.flatten
      · simp [hc]
      · simp only [if_neg hc]
        exact ⟨fun h2 => absurd h2 (hfill0 c), fun h2 => absurd h2 hc⟩
    have hclosed : ∀ c : Coord, out.get? c.1 c.2 = some 255 →
        ClosedAt input low out c := by
      refine hcl ?_
      intro c hc
      exact absurd hc (hfill0 c)
    refine ⟨hptf, hnd, hint, hw, hh, hv, ?_, hmarked, ?_⟩
    · rw [← zeroCount_fill input.width input.height]
      exact hzc
    · intro c
      rw [hmarked c]
      constructor
      · exact hreach c
      · intro hr
        induction hr with
        | seed c0 v hi0 hv0 hh0 =>
          exact (hmarked c0).1 (hcov c0 (mem_interiorCoords.mpr hi0) v hv0 hh0)
        | step p0 q0 v hp0 hq0 hv0 hl0 hpm =>
          exact (hmarked q0).1 (hclosed p0 ((hmarked p0).2 hpm) q0 hq0 v hv0 hl0)

/-- The drained lazy iterator equals the eager trace with each per-seed
segment reversed. -/
theorem cannyPixelsList_eq {input : Raster ℚ} {low high : ℚ} (hlh : low ≤ high) :
    cannyPixelsList input low high =
      (hystRun input low high).map (fun r => (r.2.map List.reverse).flatten) := by
  unfold cannyPixelsList hystRun drain
  rw [if_neg (not_lt.2 hlh)]
  by_cases hd : dimsCrash input.width input.height
  · rw [if_pos hd, if_pos hd]
    rfl
  · rw [if_neg hd, if_neg hd,
      drainF_eq (values01_fill0 input.width input.height) (by omega)]
    cases hystScan input low high (interiorCoords input.width input.height)
        (Raster.fill input.width input.height 0) with
    | none => rfl
    | some r => simp

theorem hysteresis_eq_some {input : Raster ℚ} {low high : ℚ} {out : Raster ℕ} :
    hysteresis input low high = some out ↔
      ∃ segs, hystRun input low high = some (out, segs) := by
  unfold hysteresis
  cases hr : hystRun input low high with
  | none => simp
  | some r =>
    obtain ⟨o, s⟩ := r
    simp only [Option.map_some', Option.some.injEq, Prod.mk.injEq]
    constructor
    · rintro rfl
      exact ⟨s, rfl, rfl⟩
    · rintro ⟨segs, hs, _⟩
      exact hs

theorem hysteresis_none_iff {input : Raster ℚ} {low high : ℚ} :
    hysteresis input low high = none ↔ hystRun input low high = none := by
  unfold hysteresis
  cases hystRun input low high <;> simp

/-! ### Raster extensionality and counting -/

theorem data_getElem?_eq_get? (r : Raster α) (i : ℕ) (hi : i < r.data.length) :
    r.data[i]? = r.get? ((i % r.width : ℕ) : ℤ) ((i / r.width : ℕ) : ℤ) := by
  have hlen := r.hsize
  have hw : 0 < r.width := by
    by_contra hw
    simp only [Nat.not_lt, Nat.le_zero] at hw
    rw [hlen, hw] at hi
    omega
  have hx : i % r.width < r.width := Nat.mod_lt _ hw
  have hy : i / r.width < r.height := by
    rw [Nat.div_lt_iff_lt_mul hw]
    rw [hlen] at hi
    calc i < r.width * r.height := hi
      _ = r.height * r.width := Nat.mul_comm _ _
  have hib : r.InBounds ((i % r.width : ℕ) : ℤ) ((i / r.width : ℕ) : ℤ) := by
    refine ⟨Int.natCast_nonneg _, by exact_mod_cast hx, Int.natCast_nonneg _,
      by exact_mod_cast hy⟩
  rw [Raster.get?, if_pos hib]
  have hidx : ((i / r.width : ℕ) : ℤ).toNat * r.width + ((i % r.width : ℕ) : ℤ).toNat = i := by
    rw [Int.toNat_natCast, Int.toNat_natCast, Nat.mul_comm]
    exact Nat.div_add_mod i r.width
  rw [hidx]

theorem ext_get? {r s : Raster α} (hw : r.width = s.width) (hh : r.height = s.height)
    (hg : ∀ x y : ℤ, r.get? x y = s.get? x y) : r = s := by
  refine Raster.ext_wh_data hw hh ?_
  have hlen : r.data.length = s.data.length := by
    rw [r.hsize, s.hsize, hw, hh]
  apply List.ext_getElem?
  intro i
  by_cases hi : i < r.data.length
  · rw [data_getElem?_eq_get? r i hi, data_getElem?_eq_get? s i (hlen ▸ hi), hg, hw]
  · rw [List.getElem?_eq_none (by omega), List.getElem?_eq_none (by omega)]

theorem countP_255_le : ∀ (l1 l2 : List ℕ), l1.length = l2.length →
    (∀ i : ℕ, l2[i]? = some 255 → l1[i]? = some 255) →
    l2.countP (fun v => v == 255) ≤ l1.countP (fun v => v == 255) := by
  intro l1
  induction l1 with
  | nil =>
    intro l2 hlen _
    cases l2 with
    | nil => exact le_refl _
    | cons b t2 => simp at hlen
  | cons a t1 ih =>
    intro l2 hlen hp
    cases l2 with
    | nil => simp at hlen
    | cons b t2 =>
      have htail : t2.countP (fun v => v == 255) ≤ t1.countP (fun v => v == 255) := by
        refine ih t2 (by simpa using hlen) ?_
        intro i hi
        have := hp (i + 1) (by simpa using hi)
        simpa using this
      by_cases hb : b = 255
      · have ha : a = 255 := by
          have := hp 0 (by simp [hb])
          simpa using this
        rw [List.countP_cons_of_pos _ _ (by simp [hb]),
          List.countP_cons_of_pos _ _ (by simp [ha])]
        omega
      · rw [List.countP_cons_of_neg _ _ (by simp [hb]), List.countP_cons]
        omega

/-! ### Reconstruction by writing foreground at the yielded coordinates -/

theorem foldl_set_width (coords : List Coord) (r : Raster ℕ) :
    (coords.foldl (fun r c => r.set c.1 c.2 255) r).width = r.width := by
  induction coords generalizing r with
  | nil => rfl
  | cons c rest ihr => rw [List.foldl_cons, ihr, Raster.set_width]

theorem foldl_set_height (coords : List Coord) (r : Raster ℕ) :
    (coords.foldl (fun r c => r.set c.1 c.2 255) r).height = r.height := by
  induction coords generalizing r with
  | nil => rfl
  | cons c rest ihr => rw [List.foldl_cons, ihr, Raster.set_height]

theorem foldl_set_get? :
    ∀ (coords : List Coord) (r : Raster ℕ),
      (∀ e ∈ coords, r.InBounds e.1 e.2) →
      ∀ c : Coord, (coords.foldl (fun r c => r.set c.1 c.2 255) r).get? c.1 c.2 =
        if c ∈ coords then some 255 else r.get? c.1 c.2 := by
  intro coords
  induction coords with
  | nil =>
    intro r _ c
    simp
  | cons e rest ihr =>
    intro r hin c
    rw [List.foldl_cons]
    have hine : r.InBounds e.1 e.2 := hin e (List.mem_cons_self e rest)
    have hin' : ∀ p ∈ rest, (r.set e.1 e.2 255).InBounds p.1 p.2 := by
      intro p hp
      rw [Raster.inBounds_set_iff]
      exact hin p (List.mem_cons_of_mem _ hp)
    rw [ihr (r.set e.1 e.2 255) hin' c]
    by_cases hcr : c ∈ rest
    · rw [if_pos hcr, if_pos (List.mem_cons_of_mem _ hcr)]
    · rw [if_neg hcr]
      by_cases hce : c = e
      · subst hce
        rw [if_pos (List.mem_cons_self c rest), Raster.get?_set_self hine]
      · rw [if_neg (fun hm => (List.mem_cons.1 hm).elim hce hcr),
          Raster.get?_set_other 255 (fun hp => hce (Prod.ext hp.1 hp.2))]

/-- Writing foreground at any list of coordinates with the same members as
the marking trace reproduces the hysteresis output bit-for-bit. -/
theorem writeFg_reproduces {input : Raster ℚ} {low high : ℚ} {out : Raster ℕ}
    {segs : List (List Coord)}
    (h : hystRun input low high = some (out, segs)) (L : List Coord)
    (hmemL : ∀ c : Coord, c ∈ L ↔ c ∈ segs.flatten) :
    writeFg input.width input.height L = out := by
  obtain ⟨hpt, _, hint, hw, hh, _, _, _, _⟩ := hystRun_spec h
  have hinL : ∀ e ∈ L, (Raster.fill input.width input.height (0 : ℕ)).InBounds e.1 e.2 := by
    intro e he
    exact inBounds_of_isInterior (hint e ((hmemL e).1 he))
  refine ext_get? ?_ ?_ ?_
  · rw [writeFg, foldl_set_width, hw]
    rfl
  · rw [writeFg, foldl_set_height, hh]
    rfl
  · intro x y
    rw [writeFg, foldl_set_get? L _ hinL (x, y), hpt (x, y)]
    by_cases hm : (x, y) ∈ segs.flatten
    · rw [if_pos hm, if_pos ((hmemL (x, y)).2 hm)]
    · rw [if_neg hm, if_neg (fun hc => hm ((hmemL (x, y)).1 hc))]

/-! ### Membership and duplicate-freedom of the reversed trace -/

theorem mem_flatten_map_reverse {segs : List (List Coord)} {c : Coord} :
    c ∈ (segs.map List.reverse).flatten ↔ c ∈ segs.flatten := by
  rw [List.mem_flatten, List.mem_flatten]
  constructor
  · rintro ⟨l, hl, hc⟩
    rw [List.mem_map] at hl
    obtain ⟨s, hs, rfl⟩ := hl
    exact ⟨s, hs, List.mem_reverse.1 hc⟩
  · rintro ⟨s, hs, hc⟩
    exact ⟨s.reverse, List.mem_map.2 ⟨s, hs, rfl⟩, List.mem_reverse.2 hc⟩

theorem nodup_flatten_map_reverse {segs : List (List Coord)}
    (h : segs.flatten.Nodup) : (segs.map List.reverse).flatten.Nodup := by
  rw [List.nodup_flatten] at h ⊢
  obtain ⟨h1, h2⟩ := h
  constructor
  · intro l hl
    rw [List.mem_map] at hl
    obtain ⟨s, hs, rfl⟩ := hl
    exact List.nodup_reverse.2 (h1 s hs)
  · refine (List.pairwise_map).2 ?_
    refine h2.imp ?_
    intro a b hab
    rw [List.disjoint_left] at hab ⊢
    intro c hca hcb
    exact hab (List.mem_reverse.1 hca) (List.mem_reverse.1 hcb)

theorem length_flatten_map_reverse (segs : List (List Coord)) :
    (segs.map List.reverse).flatten.length = segs.flatten.length := by
  rw [List.length_flatten, List.length_flatten, List.map_map]
  congr 1
  apply List.map_congr_left
  intro s _
  exact List.length_reverse s

/-! ### Non-maximum suppression -/

theorem cmpNeighbors_inBounds {r : Raster α} {x y : ℤ}
    (hi : IsInterior r.width r.height (x, y)) (b : ℕ) :
    r.InBounds (cmpNeighbors x y b).1.1 (cmpNeighbors x y b).1.2 ∧
    r.InBounds (cmpNeighbors x y b).2.1 (cmpNeighbors x y b).2.2 := by
  obtain ⟨h1, h2, h3, h4⟩ := hi
  simp only [Prod.fst, Prod.snd] at h1 h2 h3 h4
  unfold cmpNeighbors
  split_ifs <;> dsimp only <;>
    exact ⟨⟨by omega, by omega, by omega, by omega⟩,
      ⟨by omega, by omega, by omega, by omega⟩⟩

/-- The non-maximum-suppression fold succeeds on interior scan coordinates
of equal-sized rasters and writes each scanned coordinate exactly the value
the source computes there, leaving every other sample untouched. -/
theorem nmsFold_spec {g : Raster ℚ} {gx gy : Raster ℤ} {atanDeg : ℤ → ℤ → ℚ}
    (hwx : gx.width = g.width) (hhx : gx.height = g.height)
    (hwy : gy.width = g.width) (hhy : gy.height = g.height) :
    ∀ (L : List Coord) (out0 : Raster ℚ),
      out0.width = g.width → out0.height = g.height →
      (∀ c ∈ L, IsInterior g.width g.height c) → L.Nodup →
      ∃ out, List.foldlM (nmsStep g gx gy atanDeg) out0 L = some out ∧
        out.width = out0.width ∧ out.height = out0.height ∧
        (∀ c : Coord, c ∉ L → out.get? c.1 c.2 = out0.get? c.1 c.2) ∧
        (∀ c ∈ L, ∀ xg yg : ℤ, ∀ cmp1 cmp2 pixel : ℚ,
          gx.get? c.1 c.2 = some xg → gy.get? c.1 c.2 = some yg →
          g.get? (cmpNeighbors c.1 c.2 (clampAngle (atanDeg yg xg))).1.1
            (cmpNeighbors c.1 c.2 (clampAngle (atanDeg yg xg))).1.2 = some cmp1 →
          g.get? (cmpNeighbors c.1 c.2 (clampAngle (atanDeg yg xg))).2.1
            (cmpNeighbors c.1 c.2 (clampAngle (atanDeg yg xg))).2.2 = some cmp2 →
          g.get? c.1 c.2 = some pixel →
          out.get? c.1 c.2 = some (if pixel < cmp1 ∨ pixel < cmp2 then 0 else pixel)) := by
  intro L
  induction L with
  | nil =>
    intro out0 _ _ _ _
    exact ⟨out0, rfl, rfl, rfl, fun c _ => rfl, by simp⟩
  | cons c rest ih =>
    intro out0 hwo hho hint hnd
    have hic : IsInterior g.width g.height c := hint c (List.mem_cons_self c rest)
    obtain ⟨cx, cy⟩ := c
    have hibg : g.InBounds cx cy := inBounds_of_isInterior (r := g) hic
    have hibx : gx.InBounds cx cy :=
      ⟨hibg.1, by rw [hwx]; exact hibg.2.1, hibg.2.2.1, by rw [hhx]; exact hibg.2.2.2⟩
    have hiby : gy.InBounds cx cy :=
      ⟨hibg.1, by rw [hwy]; exact hibg.2.1, hibg.2.2.1, by rw [hhy]; exact hibg.2.2.2⟩
    have hibo : out0.InBounds cx cy :=
      ⟨hibg.1, by rw [hwo]; exact hibg.2.1, hibg.2.2.1, by rw [hho]; exact hibg.2.2.2⟩
    obtain ⟨xg, hxg⟩ := Raster.get?_isSome hibx
    obtain ⟨yg, hyg⟩ := Raster.get?_isSome hiby
    obtain ⟨hn1, hn2⟩ := cmpNeighbors_inBounds (r := g) hic (clampAngle (atanDeg yg xg))
    obtain ⟨cmp1, hc1⟩ := Raster.get?_isSome hn1
    obtain ⟨cmp2, hc2⟩ := Raster.get?_isSome hn2
    obtain ⟨pixel, hpx⟩ := Raster.get?_isSome hibg
    have hstep : nmsStep g gx gy atanDeg out0 (cx, cy) =
        some (out0.set cx cy (if pixel < cmp1 ∨ pixel < cmp2 then 0 else pixel)) := by
      rw [nmsStep]
      rw [hxg, hyg]
      simp only [Option.bind_eq_bind, Option.some_bind]
      rw [hc1, hc2]
      simp only [Option.some_bind]
      rw [hpx]
      simp only [Option.some_bind]
      by_cases hcmp : pixel < cmp1 ∨ pixel < cmp2
      · rw [if_pos hcmp, if_pos hcmp]
        rfl
      · rw [if_neg hcmp, if_neg hcmp]
        rfl
    have hrest : ∀ p ∈ rest, IsInterior g.width g.height p :=
      fun p hp => hint p (List.mem_cons_of_mem _ hp)
    obtain ⟨out, hfold, hw, hh, huntouched, hvals⟩ :=
      ih (out0.set cx cy (if pixel < cmp1 ∨ pixel < cmp2 then 0 else pixel))
        (by rw [Raster.set_width]; exact hwo) (by rw [Raster.set_height]; exact hho)
        hrest (List.nodup_cons.1 hnd).2
    refine ⟨out, ?_, ?_, ?_, ?_, ?_⟩
    · rw [List.foldlM_cons, hstep]
      simpa using hfold
    · rw [hw, Raster.set_width]
    · rw [hh, Raster.set_height]
    · intro p hp
      have hpr : p ∉ rest := fun hm => hp (List.mem_cons_of_mem _ hm)
      have hpc : p ≠ (cx, cy) := fun he => hp (he ▸ List.mem_cons_self _ _)
      rw [huntouched p hpr,
        Raster.get?_set_other _ (fun hq => hpc (Prod.ext hq.1 hq.2))]
    · intro p hp xg' yg' cmp1' cmp2' pixel' hxg' hyg' hc1' hc2' hpx'
      rcases List.mem_cons.1 hp with rfl | hpr
      · have hxe : xg' = xg := by rw [hxg] at hxg'; exact (Option.some.inj hxg').symm
        have hye : yg' = yg := by rw [hyg] at hyg'; exact (Option.some.inj hyg').symm
        subst hxe
        subst hye
        have hce1 : cmp1' = cmp1 := by rw [hc1] at hc1'; exact (Option.some.inj hc1').symm
        have hce2 : cmp2' = cmp2 := by rw [hc2] at hc2'; exact (Option.some.inj hc2').symm
        have hpe : pixel' = pixel := by rw [hpx] at hpx'; exact (Option.some.inj hpx').symm
        subst hce1
        subst hce2
        subst hpe
        have hprest : (cx, cy) ∉ rest := (List.nodup_cons.1 hnd).1
        rw [huntouched (cx, cy) hprest]
        exact Raster.get?_set_self hibo _
      · exact hvals p hpr xg' yg' cmp1' cmp2' pixel' hxg' hyg' hc1' hc2' hpx'

/-- Characterization of `non_maximum_suppression` on non-degenerate
dimensions: for equal-sized inputs it succeeds, preserves the dimensions,
leaves every non-interior pixel at the initial background 0, and writes
each interior pixel its magnitude if that is at least both comparison
neighbors selected by its direction bucket (ties kept), else 0. -/
theorem nms_spec {g : Raster ℚ} {gx gy : Raster ℤ} {atanDeg : ℤ → ℤ → ℚ}
    (hd : ¬ dimsCrash g.width g.height)
    (hwx : gx.width = g.width) (hhx : gx.height = g.height)
    (hwy : gy.width = g.width) (hhy : gy.height = g.height) :
    ∃ out, nms g gx gy atanDeg = some out ∧
      out.width = g.width ∧ out.height = g.height ∧
      (∀ c : Coord, ¬ IsInterior g.width g.height c →
        out.get? c.1 c.2 = (Raster.fill g.width g.height (0 : ℚ)).get? c.1 c.2) ∧
      (∀ c : Coord, IsInterior g.width g.height c → ∀ xg yg : ℤ, ∀ cmp1 cmp2 pixel : ℚ,
        gx.get? c.1 c.2 = some xg → gy.get? c.1 c.2 = some yg →
        g.get? (cmpNeighbors c.1 c.2 (clampAngle (atanDeg yg xg))).1.1
          (cmpNeighbors c.1 c.2 (clampAngle (atanDeg yg xg))).1.2 = some cmp1 →
        g.get? (cmpNeighbors c.1 c.2 (clampAngle (atanDeg yg xg))).2.1
          (cmpNeighbors c.1 c.2 (clampAngle (atanDeg yg xg))).2.2 = some cmp2 →
        g.get? c.1 c.2 = some pixel →
        out.get? c.1 c.2 = some (if pixel < cmp1 ∨ pixel < cmp2 then 0 else pixel)) := by
  obtain ⟨out, hfold, hw, hh, huntouched, hvals⟩ :=
    nmsFold_spec hwx hhx hwy hhy (interiorCoords g.width g.height)
      (Raster.fill g.width g.height 0) rfl rfl
      (fun c hc => mem_interiorCoords.mp hc)
      (nodup_interiorCoords g.width g.height)
  refine ⟨out, ?_, hw, hh, ?_, ?_⟩
  · rw [nms, if_neg hd]
    exact hfold
  · intro c hc
    exact huntouched c (fun hm => hc (mem_interiorCoords.mp hm))
  · intro c hc
    exact hvals c (mem_interiorCoords.mpr hc)

/-- If no scanned coordinate reaches the high threshold, the scan changes
nothing and records no seed event. -/
theorem hystScan_no_seed {input : Raster ℚ} {low high : ℚ} :
    ∀ {inds : List Coord} {out : Raster ℕ},
      (∀ c ∈ inds, ∃ ip, input.get? c.1 c.2 = some ip ∧ ip < high) →
      (∀ c ∈ inds, ∃ op, out.get? c.1 c.2 = some op) →
      hystScan input low high inds out = some (out, []) := by
  intro inds
  induction inds with
  | nil =>
    intro out _ _
    rfl
  | cons c rest ih =>
    intro out hip hop
    obtain ⟨ip, hip0, hlt⟩ := hip c (List.mem_cons_self c rest)
    obtain ⟨op, hop0⟩ := hop c (List.mem_cons_self c rest)
    rw [hystScan, hip0, hop0]
    simp only [Option.bind_eq_bind, Option.some_bind]
    rw [if_neg (fun hc => absurd hc.1 (not_le.2 hlt))]
    exact ih (fun p hp => hip p (List.mem_cons_of_mem _ hp))
      (fun p hp => hop p (List.mem_cons_of_mem _ hp))

/-- Thresholds only loosen as `low` and `high` decrease, so reachability is
monotone. -/
theorem reach_mono {input : Raster ℚ} {l1 h1 l2 h2 : ℚ} (hl : l1 ≤ l2) (hh : h1 ≤ h2)
    {c : Coord} (hr : Reach input l2 h2 c) : Reach input l1 h1 c := by
  induction hr with
  | seed c0 v hi hv hhv => exact Reach.seed c0 v hi hv (le_trans hh hhv)
  | step p q v hp hq hv hl2 ih => exact Reach.step p q v ih hq hv (le_trans hl hl2)

/-! ### Concrete fixtures -/

/-- A 4×3 suppressed-magnitude raster whose single seed (1,1) floods one
neighbor (2,1): the smallest input separating the lazy yield order from the
eager marking order. -/
def exInput : Raster ℚ := ⟨4, 3, [0, 0, 0, 0, 0, 10, 5, 0, 0, 0, 0, 0], rfl⟩

/-- The hysteresis output for `exInput` with thresholds 5/10. -/
def exOut : Raster ℕ := ⟨4, 3, [0, 0, 0, 0, 0, 255, 255, 0, 0, 0, 0, 0], rfl⟩

/-- A 3×3 all-zero suppressed-magnitude raster (what any constant image
produces). -/
def zeroRaster33 : Raster ℚ := ⟨3, 3, List.replicate 9 0, rfl⟩

/-- A 3×3 all-zero gradient raster. -/
def zeroGrad33 : Raster ℤ := ⟨3, 3, List.replicate 9 0, rfl⟩

/-- A 1×1 gradient raster. -/
def grad11 : Raster ℤ := ⟨1, 1, [0], rfl⟩

/-- The empty (0×0) magnitude raster. -/
def emptyQ : Raster ℚ := ⟨0, 0, [], rfl⟩

/-- The empty (0×0) gradient raster. -/
def emptyZ : Raster ℤ := ⟨0, 0, [], rfl⟩

/-! ### Claims -/

/-- C1, counterexample: on `exInput` with thresholds 5/10 the eager
`hysteresis` marks (1,1) then (2,1), but the lazy producer pops its pending
stack and therefore yields (2,1) first — the yielded sequence is not the
eager marking order. -/
theorem C1_counterexample :
    cannyPixelsList exInput 5 10 = some [(2, 1), (1, 1)] ∧
    hystOrder exInput 5 10 = some [(1, 1), (2, 1)] ∧
    cannyPixelsList exInput 5 10 ≠ hystOrder exInput 5 10 := by
  refine ⟨by decide, by decide, by decide⟩

/-- C1, amended: for every suppressed raster and thresholds
`low ≤ high`, if the eager hysteresis completes then the full drain of
`CannyPixels` yields, without duplicates, the eager per-seed trace segments
in order with each segment reversed (the pending stack pops last-marked
first); and writing the foreground value at every yielded coordinate on an
otherwise all-background raster of the same dimensions reproduces the
output of `canny` bit-for-bit.  (Both entry points share the preprocessing
verbatim, so quantifying over the suppressed raster covers every grayscale
image.) -/
theorem C1_theorem {input : Raster ℚ} {low high : ℚ} {out : Raster ℕ}
    {segs : List (List Coord)} (hlh : low ≤ high)
    (h : hystRun input low high = some (out, segs)) :
    cannyPixelsList input low high = some ((segs.map List.reverse).flatten) ∧
    ((segs.map List.reverse).flatten).Nodup ∧
    writeFg input.width input.height ((segs.map List.reverse).flatten) = out := by
  refine ⟨?_, ?_, ?_⟩
  · rw [cannyPixelsList_eq hlh, h]
    rfl
  · exact nodup_flatten_map_reverse (hystRun_spec h).2.1
  · exact writeFg_reproduces h _ (fun c => mem_flatten_map_reverse)

theorem C1_witness :
    ((5 : ℚ) ≤ 10 ∧
      hystRun exInput 5 10 = some (exOut, [[(1, 1), (2, 1)]])) ∧
    (cannyPixelsList exInput 5 10 =
        some (([[(1, 1), (2, 1)]].map List.reverse).flatten) ∧
      (([[((1 : ℤ), (1 : ℤ)), (2, 1)]].map List.reverse).flatten).Nodup ∧
      writeFg exInput.width exInput.height
        (([[(1, 1), (2, 1)]].map List.reverse).flatten) = exOut) :=
  ⟨⟨by norm_num, by decide⟩, C1_theorem (by norm_num) (by decide)⟩

/-- C2: for every suppressed raster and thresholds `low ≤ high`, when both
runs complete, the lazy producer yields each coordinate at most once and
the set it yields is exactly the set of coordinates holding the foreground
value 255 in the eager output. -/
theorem C2_theorem {input : Raster ℚ} {low high : ℚ} {out : Raster ℕ} {L : List Coord}
    (hlh : low ≤ high)
    (hL : cannyPixelsList input low high = some L)
    (hout : hysteresis input low high = some out) :
    L.Nodup ∧ (∀ c : Coord, c ∈ L ↔ out.get? c.1 c.2 = some 255) := by
  obtain ⟨segs, hrun⟩ := hysteresis_eq_some.mp hout
  rw [cannyPixelsList_eq hlh, hrun] at hL
  simp only [Option.map_some'] at hL
  have hLe : L = (segs.map List.reverse).flatten := (Option.some.inj hL).symm
  subst hLe
  obtain ⟨_, hnd, _, _, _, _, _, hmarked, _⟩ := hystRun_spec hrun
  refine ⟨nodup_flatten_map_reverse hnd, ?_⟩
  intro c
  rw [mem_flatten_map_reverse]
  exact (hmarked c).symm

theorem C2_witness :
    ((5 : ℚ) ≤ 10 ∧
      cannyPixelsList exInput 5 10 = some [(2, 1), (1, 1)] ∧
      hysteresis exInput 5 10 = some exOut) ∧
    (([((2 : ℤ), (1 : ℤ)), (1, 1)] : List Coord).Nodup ∧
      (∀ c : Coord, c ∈ ([(2, 1), (1, 1)] : List Coord) ↔
        exOut.get? c.1 c.2 = some 255)) :=
  ⟨⟨by norm_num, by decide, by decide⟩,
    @C2_theorem exInput 5 10 exOut [(2, 1), (1, 1)] (by norm_num) (by decide) (by decide)⟩

/-- A 3×3 magnitude raster with pairwise distinct samples, for exercising
the suppression rule. -/
def g33 : Raster ℚ := ⟨3, 3, [1, 2, 3, 4, 5, 6, 7, 8, 9], rfl⟩

/-- C3, counterexample: on the empty (0×0) raster the claim's "returns a
raster of the same dimensions" fails — the `u32` range `1..(height - 1)`
underflows and `non_maximum_suppression` panics (modelled by `none`). -/
theorem C3_counterexample :
    nms emptyQ emptyZ emptyZ (fun _ _ => 0) = none := rfl

/-- C3, amended: for equal-dimension inputs whose dimensions do not make
the `u32` range computation underflow (`height ≥ 1`, and `width ≥ 1` when
`height ≥ 3`), `non_maximum_suppression` returns a raster of the same
dimensions whose outer one-pixel border ring is 0 and whose every interior
pixel equals its magnitude when that is at least both comparison neighbors
selected by its quantized direction bucket — ties kept — and 0 otherwise.
The bucket is `clampAngle` of the `atan2` angle in degrees (`atanDeg`, the
external floating-point arctangent, universally quantified), +180 if
negative, with the claim's boundary intervals, and the neighbor pairs are
`cmpNeighbors`, exactly the claim's table. -/
theorem C3_theorem {g : Raster ℚ} {gx gy : Raster ℤ} {atanDeg : ℤ → ℤ → ℚ}
    (hd : ¬ dimsCrash g.width g.height)
    (hwx : gx.width = g.width) (hhx : gx.height = g.height)
    (hwy : gy.width = g.width) (hhy : gy.height = g.height) :
    ∃ out, nms g gx gy atanDeg = some out ∧
      out.width = g.width ∧ out.height = g.height ∧
      (∀ c : Coord, OnBorder g.width g.height c → out.get? c.1 c.2 = some 0) ∧
      (∀ c : Coord, IsInterior g.width g.height c →
        ∀ xg yg : ℤ, ∀ cmp1 cmp2 pixel : ℚ,
        gx.get? c.1 c.2 = some xg → gy.get? c.1 c.2 = some yg →
        g.get? (cmpNeighbors c.1 c.2 (clampAngle (atanDeg yg xg))).1.1
          (cmpNeighbors c.1 c.2 (clampAngle (atanDeg yg xg))).1.2 = some cmp1 →
        g.get? (cmpNeighbors c.1 c.2 (clampAngle (atanDeg yg xg))).2.1
          (cmpNeighbors c.1 c.2 (clampAngle (atanDeg yg xg))).2.2 = some cmp2 →
        g.get? c.1 c.2 = some pixel →
        out.get? c.1 c.2 =
          some (if cmp1 ≤ pixel ∧ cmp2 ≤ pixel then pixel else 0)) := by
  obtain ⟨out, hnms, hw, hh, hnon, hintr⟩ := nms_spec hd hwx hhx hwy hhy
  refine ⟨out, hnms, hw, hh, ?_, ?_⟩
  · intro c hb
    obtain ⟨hedge, hx0, hxw, hy0, hyh⟩ := hb
    have hnint : ¬ IsInterior g.width g.height c := by
      intro hi
      obtain ⟨h1, h2, h3, h4⟩ := hi
      omega
    rw [hnon c hnint]
    exact Raster.get?_fill 0 ⟨hx0, hxw, hy0, hyh⟩
  · intro c hi xg yg cmp1 cmp2 pixel hxg hyg hc1 hc2 hpx
    rw [hintr c hi xg yg cmp1 cmp2 pixel hxg hyg hc1 hc2 hpx]
    congr 1
    by_cases hk : cmp1 ≤ pixel ∧ cmp2 ≤ pixel
    · rw [if_pos hk, if_neg (by push_neg; exact hk)]
    · rw [if_neg hk, if_pos ?_]
      rcases not_and_or.mp hk with h1 | h2
      · exact Or.inl (not_le.mp h1)
      · exact Or.inr (not_le.mp h2)

theorem C3_witness :
    (¬ dimsCrash g33.width g33.height ∧ zeroGrad33.width = g33.width ∧
      zeroGrad33.height = g33.height) ∧
    (∃ out, nms g33 zeroGrad33 zeroGrad33 (fun _ _ => 0) = some out ∧
      out.width = g33.width ∧ out.height = g33.height ∧
      (∀ c : Coord, OnBorder g33.width g33.height c → out.get? c.1 c.2 = some 0) ∧
      (∀ c : Coord, IsInterior g33.width g33.height c →
        ∀ xg yg : ℤ, ∀ cmp1 cmp2 pixel : ℚ,
        zeroGrad33.get? c.1 c.2 = some xg → zeroGrad33.get? c.1 c.2 = some yg →
        g33.get? (cmpNeighbors c.1 c.2 (clampAngle ((fun _ _ => (0 : ℚ)) yg xg))).1.1
          (cmpNeighbors c.1 c.2 (clampAngle ((fun _ _ => (0 : ℚ)) yg xg))).1.2 = some cmp1 →
        g33.get? (cmpNeighbors c.1 c.2 (clampAngle ((fun _ _ => (0 : ℚ)) yg xg))).2.1
          (cmpNeighbors c.1 c.2 (clampAngle ((fun _ _ => (0 : ℚ)) yg xg))).2.2 = some cmp2 →
        g33.get? c.1 c.2 = some pixel →
        out.get? c.1 c.2 =
          some (if cmp1 ≤ pixel ∧ cmp2 ≤ pixel then pixel else 0))) :=
  ⟨⟨by decide, rfl, rfl⟩,
    @C3_theorem g33 zeroGrad33 zeroGrad33 (fun _ _ => 0) (by decide) rfl rfl rfl rfl⟩

/-- C4, at the failing input: with the valid threshold pair
`low = high = 0` on a 3×3 raster, every interior pixel is a seed and the
flood marks border pixels (their suppressed value 0 satisfies `0 ≥ low`);
popping border pixel (0,2) computes neighbor coordinates outside the
raster — `(nx, ny + 1) = (1, 3)` is read out of bounds and `(nx − 1, ny − 1)`
underflows `u32` — so both the eager `hysteresis`/`canny` and the full
drain of `CannyPixels` panic instead of completing. -/
theorem C4_theorem :
    hysteresis zeroRaster33 0 0 = none ∧
    cannyPixelsList zeroRaster33 0 0 = none ∧
    canny 3 3 zeroGrad33 zeroGrad33 (fun _ _ => 0) (fun _ _ => 0) 0 0 = none := by
  refine ⟨by decide, by decide, by decide⟩

/-- C5: for every suppressed raster and valid thresholds
`0 ≤ low ≤ high`, whenever `canny` completes, every pixel on the outer
one-pixel border of its output holds the background 0, and every coordinate
the lazy producer yields is strictly interior.  (A run that marks a border
pixel necessarily panics when that pixel is popped, so a completed run
never touched the border.) -/
theorem C5_theorem {input : Raster ℚ} {low high : ℚ} {out : Raster ℕ}
    (h0 : 0 ≤ low) (hlh : low ≤ high)
    (hout : hysteresis input low high = some out) :
    (∀ c : Coord, OnBorder input.width input.height c → out.get? c.1 c.2 = some 0) ∧
    (∀ L : List Coord, cannyPixelsList input low high = some L →
      ∀ c ∈ L, IsInterior input.width input.height c) := by
  obtain ⟨segs, hrun⟩ := hysteresis_eq_some.mp hout
  obtain ⟨hpt, hnd, hint, hw, hh, hv, hzc, hmarked, hreach⟩ := hystRun_spec hrun
  constructor
  · intro c hb
    obtain ⟨hedge, hx0, hxw, hy0, hyh⟩ := hb
    have hnint : c ∉ segs.flatten := by
      intro hm
      obtain ⟨h1, h2, h3, h4⟩ := hint c hm
      omega
    rw [hpt c, if_neg hnint]
    exact Raster.get?_fill 0 ⟨hx0, hxw, hy0, hyh⟩
  · intro L hL c hc
    rw [cannyPixelsList_eq hlh, hrun] at hL
    simp only [Option.map_some'] at hL
    rw [← Option.some.inj hL] at hc
    exact hint c (mem_flatten_map_reverse.mp hc)

theorem C5_witness :
    ((0 : ℚ) ≤ 5 ∧ (5 : ℚ) ≤ 10 ∧ hysteresis exInput 5 10 = some exOut) ∧
    ((∀ c : Coord, OnBorder exInput.width exInput.height c →
        exOut.get? c.1 c.2 = some 0) ∧
      (∀ L : List Coord, cannyPixelsList exInput 5 10 = some L →
        ∀ c ∈ L, IsInterior exInput.width exInput.height c)) :=
  ⟨⟨by norm_num, by norm_num, by decide⟩,
    @C5_theorem exInput 5 10 exOut (by norm_num) (by norm_num) (by decide)⟩

/-- C6, counterexample: a 1×1 image constructs successfully (there is no
dimension check in `canny` or `CannyPixels::new`, only
`assert!(high_threshold >= low_threshold)`), and the eager run even
completes with an all-background output — contradicting the claim that
construction fails fast when `width < 3` or `height < 3`. -/
theorem C6_counterexample :
    (cannyPixelsNew 1 1 grad11 grad11 (fun _ _ => 0) (fun _ _ => 0) 0 0).isSome = true ∧
    (canny 1 1 grad11 grad11 (fun _ _ => 0) (fun _ _ => 0) 0 0).isSome = true := by
  refine ⟨by decide, by decide⟩

/-- C6, amended: construction (the shared prefix of `canny` and
`CannyPixels::new`: the assert, the gradient-magnitude raster and
non-maximum suppression) fails exactly when `high_threshold <
low_threshold` (the assert) or when the dimensions make the `u32` range of
the suppression loops underflow (`height = 0`, or `width = 0` with
`height ≥ 3`); in particular rasters with dimensions 1 or 2 construct
successfully. -/
theorem C6_theorem {w h : ℕ} {gx gy : Raster ℤ} {hyp atanDeg : ℤ → ℤ → ℚ}
    {low high : ℚ}
    (hwx : gx.width = w) (hhx : gx.height = h)
    (hwy : gy.width = w) (hhy : gy.height = h) :
    cannyPixelsNew w h gx gy hyp atanDeg low high = none ↔
      (high < low ∨ dimsCrash w h) := by
  unfold cannyPixelsNew
  by_cases hlh : high < low
  · rw [if_pos hlh]
    simp [hlh]
  · rw [if_neg hlh]
    have hlen : (List.zipWith hyp gx.data gy.data).length = w * h := by
      rw [List.length_zipWith, gx.hsize, gy.hsize, hwx, hhx, hwy, hhy, min_self]
    have hgm : gradientMagnitude w h gx gy hyp =
        some ⟨w, h, List.zipWith hyp gx.data gy.data, hlen⟩ := by
      unfold gradientMagnitude fromRaw
      rw [dif_pos hlen]
    rw [hgm]
    simp only [Option.bind_eq_bind, Option.some_bind]
    by_cases hd : dimsCrash w h
    · rw [nms, if_pos hd]
      simp [hd]
    · obtain ⟨out, hnms, _⟩ :=
        @nms_spec ⟨w, h, List.zipWith hyp gx.data gy.data, hlen⟩ gx gy atanDeg
          hd hwx hhx hwy hhy
      rw [hnms]
      simp [hlh, hd]

theorem C6_witness :
    (grad11.width = 1 ∧ grad11.height = 1) ∧
    (cannyPixelsNew 1 1 grad11 grad11 (fun _ _ => 0) (fun _ _ => 0) 0 0 = none ↔
      ((0 : ℚ) < 0 ∨ dimsCrash 1 1)) :=
  ⟨⟨rfl, rfl⟩,
    @C6_theorem 1 1 grad11 grad11 (fun _ _ => 0) (fun _ _ => 0) 0 0 rfl rfl rfl rfl⟩

/-- C7: tightening both thresholds can only lose foreground pixels: the
marked set is the closure `Reach` of the high seeds along low steps, which
is antitone in the thresholds, so (whenever both runs complete) the
foreground count with the larger pair is at most the one with the smaller
pair.  (The preprocessing is threshold-independent, so both runs of `canny`
on one image pass the same suppressed raster to `hysteresis`.) -/
theorem C7_theorem {input : Raster ℚ} {l1 h1 l2 h2 : ℚ} {out1 out2 : Raster ℕ}
    (h01 : 0 ≤ l1) (h1l : l1 ≤ h1) (h02 : 0 ≤ l2) (h2l : l2 ≤ h2)
    (hl : l1 ≤ l2) (hh : h1 ≤ h2)
    (ho1 : hysteresis input l1 h1 = some out1)
    (ho2 : hysteresis input l2 h2 = some out2) :
    fgCount out2 ≤ fgCount out1 := by
  obtain ⟨segs1, hrun1⟩ := hysteresis_eq_some.mp ho1
  obtain ⟨segs2, hrun2⟩ := hysteresis_eq_some.mp ho2
  obtain ⟨_, _, _, hw1, hh1, _, _, _, hre1⟩ := hystRun_spec hrun1
  obtain ⟨_, _, _, hw2, hh2, _, _, _, hre2⟩ := hystRun_spec hrun2
  have hcoord : ∀ x y : ℤ, out2.get? x y = some 255 → out1.get? x y = some 255 := by
    intro x y hm
    exact (hre1 (x, y)).2 (reach_mono hl hh ((hre2 (x, y)).1 hm))
  have hlen : out1.data.length = out2.data.length := by
    rw [out1.hsize, out2.hsize, hw1, hh1, hw2, hh2]
  have hwe : out1.width = out2.width := by rw [hw1, hw2]
  have hidx : ∀ i : ℕ, out2.data[i]? = some 255 → out1.data[i]? = some 255 := by
    intro i hi
    have hi2 : i < out2.data.length := by
      by_contra hge
      rw [List.getElem?_eq_none (by omega)] at hi
      exact Option.noConfusion hi
    rw [data_getElem?_eq_get? out2 i hi2] at hi
    rw [data_getElem?_eq_get? out1 i (by omega), hwe]
    exact hcoord _ _ hi
  exact countP_255_le out1.data out2.data hlen hidx

/-- The all-background 4×3 output (thresholds 6/11 find no seed in
`exInput`). -/
def exOut2 : Raster ℕ := ⟨4, 3, List.replicate 12 0, rfl⟩

theorem C7_witness :
    ((0 : ℚ) ≤ 5 ∧ (5 : ℚ) ≤ 10 ∧ (0 : ℚ) ≤ 6 ∧ (6 : ℚ) ≤ 11 ∧
      (5 : ℚ) ≤ 6 ∧ (10 : ℚ) ≤ 11 ∧
      hysteresis exInput 5 10 = some exOut ∧
      hysteresis exInput 6 11 = some exOut2) ∧
    fgCount exOut2 ≤ fgCount exOut :=
  ⟨⟨by norm_num, by norm_num, by norm_num, by norm_num, by norm_num, by norm_num,
      by decide, by decide⟩,
    @C7_theorem exInput 5 10 6 11 exOut exOut2 (by norm_num) (by norm_num)
      (by norm_num) (by norm_num) (by norm_num) (by norm_num) (by decide) (by decide)⟩

theorem zipWith_replicate_zero {hyp : ℤ → ℤ → ℚ} (n : ℕ) :
    List.zipWith hyp (List.replicate n 0) (List.replicate n 0) =
      List.replicate n (hyp 0 0) := by
  induction n with
  | zero => rfl
  | succ n ihn => simp [List.replicate_succ, ihn]

/-- C8, counterexample: a constant image has zero gradients everywhere, yet
at the valid threshold pair `low = high = 0` the 3×3 case panics (the flood
escapes to the border, C4) instead of returning an all-background raster. -/
theorem C8_counterexample :
    canny 3 3 zeroGrad33 zeroGrad33 (fun _ _ => 0) (fun _ _ => 0) 0 0 ≠
      some (Raster.fill 3 3 0) ∧
    canny 3 3 zeroGrad33 zeroGrad33 (fun _ _ => 0) (fun _ _ => 0) 0 0 = none := by
  refine ⟨by decide, by decide⟩

/-- C8, amended: for a zero gradient field (what any constant-intensity
raster produces), any valid threshold pair with `0 < high_threshold`, and
dimensions that do not underflow the suppression ranges, `canny` completes
and every sample of its output is the background 0.  (`hyp` stands for
`f32::hypot`, which satisfies `hypot 0 0 = 0`.) -/
theorem C8_theorem {w h : ℕ} {hyp atanDeg : ℤ → ℤ → ℚ} {low high : ℚ}
    (hyp0 : hyp 0 0 = 0) (h0 : 0 ≤ low) (hlh : low ≤ high) (hpos : 0 < high)
    (hd : ¬ dimsCrash w h) :
    ∃ out, canny w h (Raster.fill w h 0) (Raster.fill w h 0) hyp atanDeg low high
        = some out ∧
      out.width = w ∧ out.height = h ∧
      (∀ c : Coord, out.InBounds c.1 c.2 → out.get? c.1 c.2 = some 0) := by
  have hdata : List.zipWith hyp (Raster.fill w h (0 : ℤ)).data
      (Raster.fill w h (0 : ℤ)).data = List.replicate (w * h) (0 : ℚ) := by
    show List.zipWith hyp (List.replicate (w * h) 0) (List.replicate (w * h) 0) = _
    rw [zipWith_replicate_zero, hyp0]
  have hgm : gradientMagnitude w h (Raster.fill w h 0) (Raster.fill w h 0) hyp
      = some (Raster.fill w h (0 : ℚ)) := by
    unfold gradientMagnitude
    rw [hdata]
    unfold fromRaw
    rw [dif_pos (List.length_replicate _ _)]
    exact congrArg some (Raster.ext_wh_data rfl rfl rfl)
  obtain ⟨t, hnms, htw, hth, hnon, hintr⟩ :=
    @nms_spec (Raster.fill w h (0 : ℚ)) (Raster.fill w h (0 : ℤ))
      (Raster.fill w h (0 : ℤ)) atanDeg hd rfl rfl rfl rfl
  have htzero : ∀ c : Coord, t.InBounds c.1 c.2 → t.get? c.1 c.2 = some 0 := by
    intro c hib
    have hibf : (Raster.fill w h (0 : ℚ)).InBounds c.1 c.2 := by
      obtain ⟨a, b, c', d⟩ := hib
      rw [htw] at b
      rw [hth] at d
      exact ⟨a, b, c', d⟩
    by_cases hi : IsInterior w h c
    · have hx := hintr c hi 0 0 0 0 0
        (Raster.get?_fill 0 hibf) (Raster.get?_fill 0 hibf)
        (Raster.get?_fill 0 ((cmpNeighbors_inBounds hi _).1))
        (Raster.get?_fill 0 ((cmpNeighbors_inBounds hi _).2))
        (Raster.get?_fill 0 hibf)
      rw [hx]
      norm_num
    · rw [hnon c hi]
      exact Raster.get?_fill 0 hibf
  have hrun : hysteresis t low high = some (Raster.fill t.width t.height 0) := by
    unfold hysteresis hystRun
    rw [if_neg (by rw [htw, hth]; exact hd)]
    rw [hystScan_no_seed ?_ ?_]
    · rfl
    · intro c hc
      have hi : IsInterior t.width t.height c := mem_interiorCoords.mp hc
      refine ⟨0, ?_, hpos⟩
      exact htzero c (inBounds_of_isInterior hi)
    · intro c hc
      have hi : IsInterior t.width t.height c := mem_interiorCoords.mp hc
      refine ⟨0, Raster.get?_fill 0 ?_⟩
      exact inBounds_of_isInterior hi
  refine ⟨Raster.fill t.width t.height 0, ?_, ?_, ?_, ?_⟩
  · unfold canny
    rw [if_neg (not_lt.2 hlh), hgm]
    simp only [Option.bind_eq_bind, Option.some_bind]
    rw [hnms]
    simp only [Option.some_bind]
    exact hrun
  · rw [htw]
    rfl
  · rw [hth]
    rfl
  · intro c hib
    exact Raster.get?_fill 0 hib

theorem C8_witness :
    ((fun _ _ => (0 : ℚ)) 0 0 = 0 ∧ (0 : ℚ) ≤ 0 ∧ (0 : ℚ) ≤ 1 ∧ (0 : ℚ) < 1 ∧
      ¬ dimsCrash 3 3) ∧
    (∃ out, canny 3 3 (Raster.fill 3 3 0) (Raster.fill 3 3 0)
        (fun _ _ => 0) (fun _ _ => 0) 0 1 = some out ∧
      out.width = 3 ∧ out.height = 3 ∧
      (∀ c : Coord, out.InBounds c.1 c.2 → out.get? c.1 c.2 = some 0)) :=
  ⟨⟨rfl, by norm_num, by norm_num, by norm_num, by decide⟩,
    @C8_theorem 3 3 (fun _ _ => 0) (fun _ _ => 0) 0 1 rfl (by norm_num)
      (by norm_num) (by norm_num) (by decide)⟩

/-- C9: in both `canny` and `CannyPixels::new` (lines 31-36 and 132-137
run the identical code), the gradient-magnitude raster has the input
image's dimensions and each of its samples is `hypot` of the corresponding
samples of the two sobel rasters (`hyp` stands for the external
`f32::hypot`, applied sample by sample by `zipWith`; the raster is
assembled by `from_raw` with the image's width and height). -/
theorem C9_theorem {w h : ℕ} {gx gy : Raster ℤ} {hyp : ℤ → ℤ → ℚ}
    (hwx : gx.width = w) (hhx : gx.height = h)
    (hwy : gy.width = w) (hhy : gy.height = h) :
    ∃ g, gradientMagnitude w h gx gy hyp = some g ∧
      g.width = w ∧ g.height = h ∧
      (∀ x y : ℤ, ∀ a b : ℤ, gx.get? x y = some a → gy.get? x y = some b →
        g.get? x y = some (hyp a b)) := by
  have hlen : (List.zipWith hyp gx.data gy.data).length = w * h := by
    rw [List.length_zipWith, gx.hsize, gy.hsize, hwx, hhx, hwy, hhy, min_self]
  refine ⟨⟨w, h, List.zipWith hyp gx.data gy.data, hlen⟩, ?_, rfl, rfl, ?_⟩
  · unfold gradientMagnitude fromRaw
    rw [dif_pos hlen]
  · intro x y a b ha hb
    have hibx : gx.InBounds x y := Raster.inBounds_of_get? ha
    have hiby : gy.InBounds x y := Raster.inBounds_of_get? hb
    have hibg : (⟨w, h, List.zipWith hyp gx.data gy.data, hlen⟩ : Raster ℚ).InBounds x y := by
      obtain ⟨a1, a2, a3, a4⟩ := hibx
      exact ⟨a1, by show x < (w : ℤ); rw [← hwx]; exact a2, a3,
        by show y < (h : ℤ); rw [← hhx]; exact a4⟩
    rw [Raster.get?, if_pos hibg]
    show (List.zipWith hyp gx.data gy.data)[y.toNat * w + x.toNat]? = some (hyp a b)
    rw [List.getElem?_zipWith]
    rw [Raster.get?, if_pos hibx] at ha
    rw [Raster.get?, if_pos hiby] at hb
    rw [hwx] at ha
    rw [hwy] at hb
    rw [ha, hb]

theorem C9_witness :
    (zeroGrad33.width = 3 ∧ zeroGrad33.height = 3) ∧
    (∃ g, gradientMagnitude 3 3 zeroGrad33 zeroGrad33 (fun a b => (a + b : ℚ))
        = some g ∧
      g.width = 3 ∧ g.height = 3 ∧
      (∀ x y : ℤ, ∀ a b : ℤ, zeroGrad33.get? x y = some a →
        zeroGrad33.get? x y = some b →
        g.get? x y = some ((fun a b => (a + b : ℚ)) a b))) :=
  ⟨⟨rfl, rfl⟩,
    @C9_theorem 3 3 zeroGrad33 zeroGrad33 (fun a b => (a + b : ℚ)) rfl rfl rfl rfl⟩

/-- C10: in a completed run, each pixel is written to foreground at the
moment it is pushed and is pushed only while still background (this is what
the trace characterization records), so no pixel enters the work stack
twice: the eager trace and the lazy yield sequence are duplicate-free, and
their length — the total number of pushes, which equals the total number
of pops of the propagation loop — is at most `width * height`. -/
theorem C10_theorem {input : Raster ℚ} {low high : ℚ} {out : Raster ℕ}
    {segs : List (List Coord)} {L : List Coord}
    (hlh : low ≤ high)
    (h : hystRun input low high = some (out, segs))
    (hL : cannyPixelsList input low high = some L) :
    segs.flatten.Nodup ∧ segs.flatten.length ≤ input.width * input.height ∧
    L.Nodup ∧ L.length ≤ input.width * input.height := by
  obtain ⟨_, hnd, _, _, _, _, hzc, _, _⟩ := hystRun_spec h
  rw [cannyPixelsList_eq hlh, h] at hL
  simp only [Option.map_some'] at hL
  have hLe : L = (segs.map List.reverse).flatten := (Option.some.inj hL).symm
  subst hLe
  refine ⟨hnd, by omega, nodup_flatten_map_reverse hnd, ?_⟩
  rw [length_flatten_map_reverse]
  omega

theorem C10_witness :
    ((5 : ℚ) ≤ 10 ∧ hystRun exInput 5 10 = some (exOut, [[(1, 1), (2, 1)]]) ∧
      cannyPixelsList exInput 5 10 = some [(2, 1), (1, 1)]) ∧
    (([[((1 : ℤ), (1 : ℤ)), (2, 1)]] : List (List Coord)).flatten.Nodup ∧
      ([[((1 : ℤ), (1 : ℤ)), (2, 1)]] : List (List Coord)).flatten.length ≤
        exInput.width * exInput.height ∧
      ([((2 : ℤ), (1 : ℤ)), (1, 1)] : List Coord).Nodup ∧
      ([((2 : ℤ), (1 : ℤ)), (1, 1)] : List Coord).length ≤
        exInput.width * exInput.height) :=
  ⟨⟨by norm_num, by decide, by decide⟩,
    @C10_theorem exInput 5 10 exOut [[(1, 1), (2, 1)]] [(2, 1), (1, 1)]
      (by norm_num) (by decide) (by decide)⟩

end Imageproc
